import Mathlib

/-!
Shallow embedding of the certificate-pool allocation and sale-commit engine
of `src/app/page.tsx` (the Feedstock Allocation / Biodiesel Sales logic).

Modelling conventions:
* JavaScript `number` values (gallons) are modelled as `ℚ` with exact
  arithmetic; the source's literal `1e-6` becomes `epsilon = 1/1000000`.
* A JS object `Record<string, number>` used as the feedstock pool is an
  insertion-ordered association list with (in the theorems that need it)
  pairwise-distinct keys, matching JS object key semantics.
* `Number.parseFloat(row.amountGal)` sits at the string-parsing boundary of
  the engine; its result is modelled as `Option ℚ` (`none` for a NaN parse,
  `some q` for a finite parse), so the validation `!Number.isFinite(a) || a <= 0`
  becomes a `match` on the option followed by the `a ≤ 0` test.
* `String.prototype.localeCompare` on the ASCII feedstock identifiers is
  code-point lexicographic comparison, embedded as `lexLt` on `List Char`.
* The `Date.now()/Math.random()` id generators for history rows and fresh
  sale rows are nondeterminism oracles, passed as explicit arguments
  (`mkHistoryId`, `freshRowId`).
* Error message strings carry data (the oversell message interpolates the
  remaining amount); they are embedded as the structured type `SaleError`
  with one constructor per distinct message produced by `handleCommitSales`.
-/

/-- The `Certificate` union type of the source: `"ISCC" | "LCFS" | "RFS"`. -/
inductive Certificate where
  | ISCC
  | LCFS
  | RFS
deriving DecidableEq, Repr

/-- The literal record `eligibleCertificationsByFeedstock` (page.tsx:1708),
a partial map from feedstock id to its certificate list. -/
def eligibleCertificationsByFeedstock (feedstock : String) : Option (List Certificate) :=
  if feedstock = "UCO" then some [Certificate.LCFS, Certificate.ISCC]
  else if feedstock = "Soybean" then some [Certificate.RFS]
  else if feedstock = "Cellulosic Waste" then some [Certificate.RFS, Certificate.ISCC]
  else if feedstock = "Circular Naphtha and Synthetic Oil" then some [Certificate.ISCC]
  else none

/-- `getEligibleCertificatesForFeedstock` (page.tsx:3298): the mapped list if
present, the special case for `"Waste Oil and Waste Fat"`, else empty. -/
def getEligibleCertificatesForFeedstock (feedstock : String) : List Certificate :=
  match eligibleCertificationsByFeedstock feedstock with
  | some mapped => mapped
  | none =>
    if feedstock = "Waste Oil and Waste Fat" then [Certificate.LCFS, Certificate.ISCC]
    else []

/-- `feedstockConsumptionPriorityByCertificate` (page.tsx:1714). -/
def feedstockConsumptionPriorityByCertificate : Certificate → List String
  | Certificate.ISCC =>
      ["UCO", "Circular Naphtha and Synthetic Oil", "Cellulosic Waste", "Waste Oil and Waste Fat"]
  | Certificate.LCFS => ["UCO", "Waste Oil and Waste Fat"]
  | Certificate.RFS => ["Soybean", "Cellulosic Waste"]

/-- The source's `1e-6` tolerance used in the oversell and allocation checks. -/
def epsilon : ℚ := 1 / 1000000

/-- A `Record<string, number>` pool: insertion-ordered association list from
feedstock id to remaining gallons. -/
abbrev Pool := List (String × ℚ)

/-- JS `pool[feedstock] ?? 0`: value of the first entry with the key, else 0. -/
def poolLookup (pool : Pool) (feedstock : String) : ℚ :=
  match pool.find? (fun entry => entry.1 = feedstock) with
  | some entry => entry.2
  | none => 0

/-- JS `pool[feedstock] = value`: overwrite the entry in place when the key
exists, else append a new entry (JS objects keep insertion order). -/
def poolSet (pool : Pool) (feedstock : String) (value : ℚ) : Pool :=
  if pool.any (fun entry => entry.1 = feedstock) then
    pool.map (fun entry => if entry.1 = feedstock then (entry.1, value) else entry)
  else pool ++ [(feedstock, value)]

/-- `getCertificateRemainingFromPool` (page.tsx:3325): `Object.entries(pool).reduce`
adding the gallons of each entry whose feedstock is eligible for the certificate. -/
def getCertificateRemainingFromPool (pool : Pool) (certificate : Certificate) : ℚ :=
  pool.foldl
    (fun sum entry =>
      if certificate ∈ getEligibleCertificatesForFeedstock entry.1 then sum + entry.2
      else sum)
    0

/-- Code-point lexicographic comparison on character lists: the behaviour of
`a.localeCompare(b) < 0` on the ASCII feedstock identifiers. -/
def lexLt : List Char → List Char → Bool
  | _, [] => false
  | [], _ :: _ => true
  | c :: cs, d :: ds => if c < d then true else if d < c then false else lexLt cs ds

/-- `a.localeCompare(b) < 0` for feedstock ids, via `lexLt` on the characters. -/
def feedstockLt (a b : String) : Bool := lexLt a.data b.data

/-- One insertion step of `Array.prototype.sort` as insertion sort. -/
def insertSorted (feedstock : String) : List String → List String
  | [] => [feedstock]
  | other :: rest =>
    if feedstockLt feedstock other then feedstock :: other :: rest
    else other :: insertSorted feedstock rest

/-- `.sort((a, b) => a.localeCompare(b))` modelled as insertion sort by `feedstockLt`. -/
def sortFeedstocks : List String → List String
  | [] => []
  | feedstock :: rest => insertSorted feedstock (sortFeedstocks rest)

/-- The `extraEligibleFeedstocks` local of `consumeFromSharedPool` (page.tsx:3484):
pool keys eligible for the certificate, not already in the priority list,
sorted lexicographically. -/
def extraEligibleFeedstocks (pool : Pool) (certificate : Certificate) : List String :=
  sortFeedstocks
    (((pool.map Prod.fst).filter
        (fun feedstock => certificate ∈ getEligibleCertificatesForFeedstock feedstock)).filter
      (fun feedstock => feedstock ∉ feedstockConsumptionPriorityByCertificate certificate))

/-- The `orderedFeedstocks` local of `consumeFromSharedPool` (page.tsx:3488):
priority list first, then the sorted extra eligible pool feedstocks. -/
def orderedFeedstocks (pool : Pool) (certificate : Certificate) : List String :=
  feedstockConsumptionPriorityByCertificate certificate ++ extraEligibleFeedstocks pool certificate

/-- The body of the `orderedFeedstocks.forEach` callback in
`consumeFromSharedPool` (page.tsx:3489-3500): state is `(nextPool, remainingRequest)`. -/
def consumeStep (state : Pool × ℚ) (feedstock : String) : Pool × ℚ :=
  if state.2 ≤ 0 then state
  else
    let available := poolLookup state.1 feedstock
    if available ≤ 0 then state
    else
      let consumed := min available state.2
      (poolSet state.1 feedstock (available - consumed), state.2 - consumed)

/-- `consumeFromSharedPool` (page.tsx:3476): fold `consumeStep` over the
ordered feedstocks, starting from a copy of the pool and the requested gallons.
Returns `(nextPool, remainingRequest)`. -/
def consumeFromSharedPool (pool : Pool) (certificate : Certificate)
    (requestedGallons : ℚ) : Pool × ℚ :=
  (orderedFeedstocks pool certificate).foldl consumeStep (pool, requestedGallons)

/-- JS `String.prototype.trim`: drop whitespace from both ends (structural
embedding; coincides with the JS behaviour on the ASCII inputs involved). -/
def jsTrim (s : String) : String :=
  ⟨((s.data.dropWhile Char.isWhitespace).reverse.dropWhile Char.isWhitespace).reverse⟩

/-- A proposed `SaleRow` (page.tsx state): `amountGal` is the
`Number.parseFloat` result of the entered string (see module comment). -/
structure SaleRow where
  id : String
  certificate : Certificate
  amountGal : Option ℚ
  buyerName : String
  country : String
deriving DecidableEq, Repr

/-- A committed `SaleHistoryRow` (page.tsx:3566-3572). -/
structure SaleHistoryRow where
  id : String
  certificate : Certificate
  amountGal : ℚ
  buyerName : String
  country : String
deriving DecidableEq, Repr

/-- The distinct error messages `handleCommitSales` writes into `nextErrors`,
as structured values; `oversell` carries the interpolated remaining amount. -/
inductive SaleError where
  | invalidAmount
  | missingBuyer
  | missingCountry
  | oversell (certificate : Certificate) (remaining : ℚ)
  | allocationFailed
deriving DecidableEq, Repr

/-- `Record<Certificate, number>` for the per-certificate sold totals. -/
structure SoldByCertificate where
  ISCC : ℚ
  LCFS : ℚ
  RFS : ℚ
deriving DecidableEq, Repr

/-- Field access `record[certificate]` on a `Record<Certificate, number>`. -/
def soldFor (sold : SoldByCertificate) : Certificate → ℚ
  | Certificate.ISCC => sold.ISCC
  | Certificate.LCFS => sold.LCFS
  | Certificate.RFS => sold.RFS

/-- `next[row.certificate] = (next[row.certificate] ?? 0) + row.amountGal`
(page.tsx:3586). -/
def addSold (sold : SoldByCertificate) (certificate : Certificate) (amount : ℚ) :
    SoldByCertificate :=
  match certificate with
  | Certificate.ISCC => { sold with ISCC := sold.ISCC + amount }
  | Certificate.LCFS => { sold with LCFS := sold.LCFS + amount }
  | Certificate.RFS => { sold with RFS := sold.RFS + amount }

/-- The component state touched by `handleCommitSales` and the pool-reset
effect: pool, proposed rows, errors keyed by row id, committed history, and
per-certificate sold totals. -/
structure SalesState where
  remainingPoolByFeedstock : Pool
  saleRows : List SaleRow
  saleErrors : List (String × SaleError)
  salesHistory : List SaleHistoryRow
  soldByCertificateTxn : SoldByCertificate
deriving DecidableEq, Repr

/-- `createEmptySaleRow` (page.tsx:3342), with the generated id passed in:
an empty `amountGal` string parses to NaN, hence `none`. -/
def createEmptySaleRow (freshRowId : String) : SaleRow :=
  { id := freshRowId
    certificate := Certificate.ISCC
    amountGal := none
    buyerName := ""
    country := "" }

/-- Accumulator of the `saleRows.forEach` loop in `handleCommitSales`
(page.tsx:3534-3536): collected errors, working pool, committed rows. -/
structure CommitLoopState where
  nextErrors : List (String × SaleError)
  draftPool : Pool
  committedRows : List SaleHistoryRow
deriving DecidableEq, Repr

/-- The body of the `saleRows.forEach` callback in `handleCommitSales`
(page.tsx:3537-3573): validate, oversell-check against the draft pool,
consume, and either record an error keyed by the row id or commit the row. -/
def commitSaleRow (mkHistoryId : String → String) (acc : CommitLoopState)
    (row : SaleRow) : CommitLoopState :=
  match row.amountGal with
  | none => { acc with nextErrors := acc.nextErrors ++ [(row.id, SaleError.invalidAmount)] }
  | some amountGallons =>
    if amountGallons ≤ 0 then
      { acc with nextErrors := acc.nextErrors ++ [(row.id, SaleError.invalidAmount)] }
    else if jsTrim row.buyerName = "" then
      { acc with nextErrors := acc.nextErrors ++ [(row.id, SaleError.missingBuyer)] }
    else if jsTrim row.country = "" then
      { acc with nextErrors := acc.nextErrors ++ [(row.id, SaleError.missingCountry)] }
    else
      let remainingForCertificate := getCertificateRemainingFromPool acc.draftPool row.certificate
      if remainingForCertificate + epsilon < amountGallons then
        { acc with nextErrors := acc.nextErrors ++
            [(row.id, SaleError.oversell row.certificate remainingForCertificate)] }
      else
        let consumed := consumeFromSharedPool acc.draftPool row.certificate amountGallons
        if epsilon < consumed.2 then
          { acc with nextErrors := acc.nextErrors ++ [(row.id, SaleError.allocationFailed)] }
        else
          { acc with
            draftPool := consumed.1
            committedRows := acc.committedRows ++
              [{ id := mkHistoryId row.id
                 certificate := row.certificate
                 amountGal := amountGallons
                 buyerName := jsTrim row.buyerName
                 country := jsTrim row.country }] }

/-- The whole `saleRows.forEach` loop of `handleCommitSales`, run on a state's
rows starting from its live pool. -/
def commitLoop (mkHistoryId : String → String) (state : SalesState) : CommitLoopState :=
  state.saleRows.foldl (commitSaleRow mkHistoryId)
    { nextErrors := []
      draftPool := state.remainingPoolByFeedstock
      committedRows := [] }

/-- `handleCommitSales` (page.tsx:3533-3592) as a state transition: if any
errors were collected, only `saleErrors` is replaced; if nothing was committed,
the state is untouched; otherwise the pool is replaced by the draft, the
history and sold totals are extended, errors are cleared and the rows reset. -/
def handleCommitSales (mkHistoryId : String → String) (freshRowId : String)
    (state : SalesState) : SalesState :=
  let loopResult := commitLoop mkHistoryId state
  if loopResult.nextErrors ≠ [] then
    { state with saleErrors := loopResult.nextErrors }
  else if loopResult.committedRows = [] then state
  else
    { remainingPoolByFeedstock := loopResult.draftPool
      saleRows := [createEmptySaleRow freshRowId]
      saleErrors := []
      salesHistory := state.salesHistory ++ loopResult.committedRows
      soldByCertificateTxn := loopResult.committedRows.foldl
        (fun sold row => addSold sold row.certificate row.amountGal)
        state.soldByCertificateTxn }

/-- The `useEffect` keyed on `producedByFeedstockSignature` (page.tsx:3362-3373):
when upstream production inputs recompute, the pool is replaced by the newly
parsed entries and every piece of sales state — including the committed
`salesHistory` — is reset. -/
def poolResetEffect (parsedEntries : Pool) (freshRowId : String)
    (_state : SalesState) : SalesState :=
  { remainingPoolByFeedstock := parsedEntries
    saleRows := [createEmptySaleRow freshRowId]
    saleErrors := []
    salesHistory := []
    soldByCertificateTxn := { ISCC := 0, LCFS := 0, RFS := 0 } }

/-- `overlapByPair` (page.tsx:3380-3395): the three pairwise overlap sums. -/
structure OverlapByPair where
  ISCC_LCFS : ℚ
  ISCC_RFS : ℚ
  LCFS_RFS : ℚ
deriving DecidableEq, Repr

/-- The body of the reduce callback of `overlapByPair` (page.tsx:3381-3392):
add the entry's gallons to every pair field whose two certificates both
contain the entry's feedstock among their eligible certificates. -/
def overlapStep (acc : OverlapByPair) (entry : String × ℚ) : OverlapByPair :=
  let certifications := getEligibleCertificatesForFeedstock entry.1
  let acc1 :=
    if Certificate.ISCC ∈ certifications ∧ Certificate.LCFS ∈ certifications then
      { acc with ISCC_LCFS := acc.ISCC_LCFS + entry.2 }
    else acc
  let acc2 :=
    if Certificate.ISCC ∈ certifications ∧ Certificate.RFS ∈ certifications then
      { acc1 with ISCC_RFS := acc1.ISCC_RFS + entry.2 }
    else acc1
  if Certificate.LCFS ∈ certifications ∧ Certificate.RFS ∈ certifications then
    { acc2 with LCFS_RFS := acc2.LCFS_RFS + entry.2 }
  else acc2

/-- `overlapByPair` (page.tsx:3380-3395): reduce `overlapStep` over the pool
entries starting from the all-zero record. -/
def overlapByPair (pool : Pool) : OverlapByPair :=
  pool.foldl overlapStep { ISCC_LCFS := 0, ISCC_RFS := 0, LCFS_RFS := 0 }

/-- Read the overlap of an unordered pair of distinct certificates out of the
`overlapByPair` record (the record stores each unordered pair once). -/
def overlapLookup (overlaps : OverlapByPair) : Certificate → Certificate → ℚ
  | Certificate.ISCC, Certificate.LCFS => overlaps.ISCC_LCFS
  | Certificate.LCFS, Certificate.ISCC => overlaps.ISCC_LCFS
  | Certificate.ISCC, Certificate.RFS => overlaps.ISCC_RFS
  | Certificate.RFS, Certificate.ISCC => overlaps.ISCC_RFS
  | Certificate.LCFS, Certificate.RFS => overlaps.LCFS_RFS
  | Certificate.RFS, Certificate.LCFS => overlaps.LCFS_RFS
  | _, _ => 0

/-- Total gallons of a pool, the `sum(pool)` of the spec's conservation
property (summed over all lots). -/
def sumPool (pool : Pool) : ℚ := (pool.map Prod.snd).sum

/-- Total amount of a list of committed rows, the spec's
`sum(all committed amounts)`. -/
def sumCommitted (rows : List SaleHistoryRow) : ℚ := (rows.map SaleHistoryRow.amountGal).sum


/-- Concrete pool of the spec's example scenarios:
`{UCO: 100, Soybean: 50}`. -/
def examplePool : Pool := [("UCO", 100), ("Soybean", 50)]

/-! ### Association-list pool lemmas -/

theorem poolLookup_nil (feedstock : String) : poolLookup [] feedstock = 0 := rfl

theorem poolLookup_cons (entry : String × ℚ) (rest : Pool) (feedstock : String) :
    poolLookup (entry :: rest) feedstock =
      if entry.1 = feedstock then entry.2 else poolLookup rest feedstock := by
  by_cases h : entry.1 = feedstock <;> simp [poolLookup, List.find?_cons, h]

theorem poolLookup_map_update_ne (pool : Pool) (feedstock other : String) (value : ℚ)
    (h : other ≠ feedstock) :
    poolLookup
        (pool.map (fun entry => if entry.1 = feedstock then (entry.1, value) else entry)) other
      = poolLookup pool other := by
  induction pool with
  | nil => rfl
  | cons e rest ih =>
    by_cases he : e.1 = feedstock
    · have hfo : ¬feedstock = other := fun hh => h hh.symm
      simp [List.map_cons, he, poolLookup_cons, hfo, ih]
    · by_cases ho : e.1 = other
      · simp [List.map_cons, he, poolLookup_cons, ho, h]
      · simp [List.map_cons, he, poolLookup_cons, ho, h, ih]

theorem poolLookup_append_single_ne (pool : Pool) (feedstock other : String) (value : ℚ)
    (h : other ≠ feedstock) :
    poolLookup (pool ++ [(feedstock, value)]) other = poolLookup pool other := by
  induction pool with
  | nil =>
    have hfo : ¬feedstock = other := fun hh => h hh.symm
    simp [poolLookup, List.find?, hfo]
  | cons e rest ih =>
    rw [List.cons_append, poolLookup_cons, poolLookup_cons]
    by_cases ho : e.1 = other
    · rw [if_pos ho, if_pos ho]
    · rw [if_neg ho, if_neg ho, ih]

theorem poolLookup_poolSet_ne (pool : Pool) (feedstock other : String) (value : ℚ)
    (h : other ≠ feedstock) :
    poolLookup (poolSet pool feedstock value) other = poolLookup pool other := by
  unfold poolSet
  by_cases hany : pool.any (fun entry => entry.1 = feedstock)
  · rw [if_pos hany, poolLookup_map_update_ne pool feedstock other value h]
  · rw [if_neg hany, poolLookup_append_single_ne pool feedstock other value h]

theorem poolSet_keys_of_any (pool : Pool) (feedstock : String) (value : ℚ)
    (h : pool.any (fun entry => entry.1 = feedstock)) :
    (poolSet pool feedstock value).map Prod.fst = pool.map Prod.fst := by
  unfold poolSet
  rw [if_pos h, List.map_map]
  apply List.map_congr_left
  intro e _
  by_cases he : e.1 = feedstock
  · simp [he]
  · simp [he]

theorem any_key_of_lookup_pos (pool : Pool) (feedstock : String)
    (h : 0 < poolLookup pool feedstock) :
    pool.any (fun entry => entry.1 = feedstock) := by
  induction pool with
  | nil => rw [poolLookup_nil] at h; exact absurd h (lt_irrefl 0)
  | cons e rest ih =>
    rw [poolLookup_cons] at h
    by_cases he : e.1 = feedstock
    · simp [List.any_cons, he]
    · rw [if_neg he] at h
      simp [List.any_cons, ih h]

theorem poolSet_values_bounded (pool : Pool) (feedstock : String) (value : ℚ)
    (hval : 0 ≤ value) (h : ∀ e ∈ pool, 0 ≤ e.2) :
    ∀ e ∈ poolSet pool feedstock value, 0 ≤ e.2 := by
  unfold poolSet
  by_cases hany : pool.any (fun entry => entry.1 = feedstock)
  · rw [if_pos hany]
    intro e he
    obtain ⟨a, ha, rfl⟩ := List.mem_map.mp he
    by_cases hk : a.1 = feedstock
    · simpa [hk] using hval
    · simpa [hk] using h a ha
  · rw [if_neg hany]
    intro e he
    rcases List.mem_append.mp he with hmem | hmem
    · exact h e hmem
    · rcases List.mem_singleton.mp hmem with rfl
      exact hval

theorem any_key_iff (pool : Pool) (feedstock : String) :
    pool.any (fun entry => entry.1 = feedstock) = true ↔ feedstock ∈ pool.map Prod.fst := by
  simp [List.any_eq_true, List.mem_map]

theorem map_update_id_of_not_mem (pool : Pool) (feedstock : String) (value : ℚ)
    (h : ∀ e ∈ pool, e.1 ≠ feedstock) :
    pool.map (fun entry => if entry.1 = feedstock then (entry.1, value) else entry) = pool := by
  induction pool with
  | nil => rfl
  | cons e rest ih =>
    rw [List.map_cons, if_neg (h e (List.mem_cons_self e rest)),
      ih (fun x hx => h x (List.mem_cons_of_mem e hx))]

theorem sumPool_nil : sumPool [] = 0 := rfl

theorem sumPool_cons (entry : String × ℚ) (rest : Pool) :
    sumPool (entry :: rest) = entry.2 + sumPool rest := by
  simp [sumPool]

theorem sumPool_poolSet (pool : Pool) (feedstock : String) (value : ℚ)
    (hnodup : (pool.map Prod.fst).Nodup)
    (hany : pool.any (fun entry => entry.1 = feedstock)) :
    sumPool (poolSet pool feedstock value) = sumPool pool - poolLookup pool feedstock + value := by
  unfold poolSet
  rw [if_pos hany]
  rw [any_key_iff] at hany
  revert hnodup hany
  induction pool with
  | nil => intro _ hmem; simp at hmem
  | cons e rest ih =>
    intro hnodup hmem
    rw [List.map_cons, List.nodup_cons] at hnodup
    by_cases he : e.1 = feedstock
    · have hrest : ∀ x ∈ rest, x.1 ≠ feedstock := by
        intro x hx hxf
        exact hnodup.1 (he ▸ hxf ▸ List.mem_map_of_mem Prod.fst hx)
      rw [List.map_cons, if_pos he, map_update_id_of_not_mem rest feedstock value hrest,
        sumPool_cons, sumPool_cons, poolLookup_cons, if_pos he]
      ring
    · have hmem' : feedstock ∈ rest.map Prod.fst := by
        rcases List.mem_cons.mp hmem with hh | hh
        · exact absurd hh.symm he
        · exact hh
      rw [List.map_cons, if_neg he, sumPool_cons, sumPool_cons, poolLookup_cons, if_neg he,
        ih hnodup.2 hmem']
      ring

/-! ### `consumeStep` lemmas -/

theorem consumeStep_keys (state : Pool × ℚ) (feedstock : String) :
    ((consumeStep state feedstock).1).map Prod.fst = state.1.map Prod.fst := by
  simp only [consumeStep]
  split_ifs with h1 h2
  · rfl
  · rfl
  · exact poolSet_keys_of_any _ _ _ (any_key_of_lookup_pos _ _ (lt_of_not_le h2))

theorem consumeStep_nonneg (state : Pool × ℚ) (feedstock : String)
    (h : ∀ e ∈ state.1, 0 ≤ e.2) :
    ∀ e ∈ (consumeStep state feedstock).1, 0 ≤ e.2 := by
  simp only [consumeStep]
  split_ifs with h1 h2
  · exact h
  · exact h
  · apply poolSet_values_bounded
    · have hmin : min (poolLookup state.1 feedstock) state.2 ≤ poolLookup state.1 feedstock :=
        min_le_left _ _
      linarith
    · exact h

theorem consumeStep_rr_nonneg (state : Pool × ℚ) (feedstock : String) (h : 0 ≤ state.2) :
    0 ≤ (consumeStep state feedstock).2 := by
  simp only [consumeStep]
  split_ifs with h1 h2
  · exact h
  · exact h
  · have hmin : min (poolLookup state.1 feedstock) state.2 ≤ state.2 := min_le_right _ _
    dsimp only
    linarith

theorem consumeStep_rr_le (state : Pool × ℚ) (feedstock : String) :
    (consumeStep state feedstock).2 ≤ state.2 := by
  simp only [consumeStep]
  split_ifs with h1 h2
  · exact le_refl _
  · exact le_refl _
  · have hav : 0 < poolLookup state.1 feedstock := lt_of_not_le h2
    have hrr : 0 < state.2 := lt_of_not_le h1
    have hmin : 0 ≤ min (poolLookup state.1 feedstock) state.2 :=
      le_min (le_of_lt hav) (le_of_lt hrr)
    dsimp only
    linarith

theorem consumeStep_rr_eq (state : Pool × ℚ) (feedstock : String) (h : 0 < state.2) :
    (consumeStep state feedstock).2 =
      max (state.2 - max (poolLookup state.1 feedstock) 0) 0 := by
  simp only [consumeStep]
  split_ifs with h1 h2
  · linarith
  · rw [max_eq_right h2, sub_zero, max_eq_left (le_of_lt h)]
  · have hav : 0 < poolLookup state.1 feedstock := lt_of_not_le h2
    rcases le_total (poolLookup state.1 feedstock) state.2 with hle | hle
    · rw [min_eq_left hle, max_eq_left (le_of_lt hav), max_eq_left (by linarith)]
    · rw [min_eq_right hle, max_eq_left (le_of_lt hav), sub_self,
        max_eq_right (by linarith)]

theorem consumeStep_frame (state : Pool × ℚ) (feedstock other : String)
    (h : other ≠ feedstock) :
    poolLookup (consumeStep state feedstock).1 other = poolLookup state.1 other := by
  simp only [consumeStep]
  split_ifs with h1 h2
  · rfl
  · rfl
  · exact poolLookup_poolSet_ne _ _ _ _ h

theorem consumeStep_of_nonpos (state : Pool × ℚ) (feedstock : String) (h : state.2 ≤ 0) :
    consumeStep state feedstock = state := by
  simp only [consumeStep]
  rw [if_pos h]

theorem consumeStep_sum (state : Pool × ℚ) (feedstock : String)
    (hnodup : (state.1.map Prod.fst).Nodup) :
    sumPool state.1 - sumPool (consumeStep state feedstock).1 =
      state.2 - (consumeStep state feedstock).2 := by
  simp only [consumeStep]
  split_ifs with h1 h2
  · simp
  · simp
  · have hav : 0 < poolLookup state.1 feedstock := lt_of_not_le h2
    rw [sumPool_poolSet state.1 feedstock _ hnodup (any_key_of_lookup_pos _ _ hav)]
    ring

/-! ### Lemmas about the consumption fold -/

theorem consumeFold_keys (fs : List String) (state : Pool × ℚ) :
    ((fs.foldl consumeStep state).1).map Prod.fst = state.1.map Prod.fst := by
  induction fs generalizing state with
  | nil => rfl
  | cons f rest ih => rw [List.foldl_cons, ih, consumeStep_keys]

theorem consumeFold_nonneg (fs : List String) (state : Pool × ℚ)
    (h : ∀ e ∈ state.1, 0 ≤ e.2) :
    ∀ e ∈ (fs.foldl consumeStep state).1, 0 ≤ e.2 := by
  induction fs generalizing state with
  | nil => exact h
  | cons f rest ih => exact ih _ (consumeStep_nonneg state f h)

theorem consumeFold_rr_nonneg (fs : List String) (state : Pool × ℚ) (h : 0 ≤ state.2) :
    0 ≤ (fs.foldl consumeStep state).2 := by
  induction fs generalizing state with
  | nil => exact h
  | cons f rest ih => exact ih _ (consumeStep_rr_nonneg state f h)

theorem consumeFold_frame (fs : List String) (state : Pool × ℚ) (other : String)
    (h : other ∉ fs) :
    poolLookup (fs.foldl consumeStep state).1 other = poolLookup state.1 other := by
  induction fs generalizing state with
  | nil => rfl
  | cons f rest ih =>
    rw [List.foldl_cons, ih _ (fun hmem => h (List.mem_cons_of_mem f hmem)),
      consumeStep_frame state f other (fun he => h (he ▸ List.mem_cons_self f rest))]

theorem consumeFold_of_nonpos (fs : List String) (state : Pool × ℚ) (h : state.2 ≤ 0) :
    fs.foldl consumeStep state = state := by
  induction fs generalizing state with
  | nil => rfl
  | cons f rest ih => rw [List.foldl_cons, consumeStep_of_nonpos state f h, ih _ h]

theorem consumeFold_sum (fs : List String) (state : Pool × ℚ)
    (hnodup : (state.1.map Prod.fst).Nodup) :
    sumPool state.1 - sumPool (fs.foldl consumeStep state).1 =
      state.2 - (fs.foldl consumeStep state).2 := by
  induction fs generalizing state with
  | nil => simp [List.foldl_nil]
  | cons f rest ih =>
    rw [List.foldl_cons]
    have h1 := consumeStep_sum state f hnodup
    have h2 := ih (consumeStep state f) (by rw [consumeStep_keys]; exact hnodup)
    linarith

theorem consumeFold_rr_bound (fs : List String) (state : Pool × ℚ) (hnodup : fs.Nodup) :
    (fs.foldl consumeStep state).2 ≤
      max (state.2 - (fs.map (fun f => max (poolLookup state.1 f) 0)).sum) 0 := by
  induction fs generalizing state with
  | nil => simp [List.foldl_nil, le_max_left]
  | cons f rest ih =>
    rw [List.nodup_cons] at hnodup
    rw [List.foldl_cons, List.map_cons, List.sum_cons]
    have hsum_nonneg : 0 ≤ ((rest.map (fun g => max (poolLookup state.1 g) 0)).sum) := by
      apply List.sum_nonneg
      intro x hx
      rcases List.mem_map.mp hx with ⟨g, _, rfl⟩
      exact le_max_right _ _
    by_cases hrr : state.2 ≤ 0
    · rw [consumeStep_of_nonpos state f hrr, consumeFold_of_nonpos rest state hrr]
      have hA : 0 ≤ max (poolLookup state.1 f) 0 := le_max_right _ _
      exact le_trans hrr (le_max_right _ _)
    · have hrrpos : 0 < state.2 := lt_of_not_le hrr
      have hstep := consumeStep_rr_eq state f hrrpos
      have hlook : ∀ g ∈ rest, poolLookup (consumeStep state f).1 g = poolLookup state.1 g := by
        intro g hg
        exact consumeStep_frame state f g (fun he => hnodup.1 (he ▸ hg))
      have hmapeq : rest.map (fun g => max (poolLookup (consumeStep state f).1 g) 0) =
          rest.map (fun g => max (poolLookup state.1 g) 0) := by
        apply List.map_congr_left
        intro g hg
        rw [hlook g hg]
      have hIH := ih (consumeStep state f) hnodup.2
      rw [hmapeq] at hIH
      rcases le_total (state.2 - max (poolLookup state.1 f) 0) 0 with hcase | hcase
      · have hs1 : (consumeStep state f).2 = 0 := by
          rw [hstep, max_eq_right hcase]
        have : (rest.foldl consumeStep (consumeStep state f)).2 ≤ 0 := by
          calc (rest.foldl consumeStep (consumeStep state f)).2
              ≤ max ((consumeStep state f).2 -
                  (rest.map (fun g => max (poolLookup state.1 g) 0)).sum) 0 := hIH
            _ ≤ 0 := by rw [hs1]; rw [max_le_iff]; constructor <;> linarith
        exact le_trans this (le_max_right _ _)
      · have hs1 : (consumeStep state f).2 = state.2 - max (poolLookup state.1 f) 0 := by
          rw [hstep, max_eq_left hcase]
        calc (rest.foldl consumeStep (consumeStep state f)).2
            ≤ max ((consumeStep state f).2 -
                (rest.map (fun g => max (poolLookup state.1 g) 0)).sum) 0 := hIH
          _ = max (state.2 - (max (poolLookup state.1 f) 0 +
                (rest.map (fun g => max (poolLookup state.1 g) 0)).sum)) 0 := by
              rw [hs1]; ring_nf
          _ ≤ max (state.2 - (max (poolLookup state.1 f) 0 +
                (rest.map (fun g => max (poolLookup state.1 g) 0)).sum)) 0 := le_refl _

/-! ### Eligibility and consumption-order lemmas -/

theorem priority_mem_eligible (certificate : Certificate) (feedstock : String)
    (h : feedstock ∈ feedstockConsumptionPriorityByCertificate certificate) :
    certificate ∈ getEligibleCertificatesForFeedstock feedstock := by
  cases certificate with
  | ISCC =>
    simp [feedstockConsumptionPriorityByCertificate] at h
    rcases h with rfl | rfl | rfl | rfl <;> decide
  | LCFS =>
    simp [feedstockConsumptionPriorityByCertificate] at h
    rcases h with rfl | rfl <;> decide
  | RFS =>
    simp [feedstockConsumptionPriorityByCertificate] at h
    rcases h with rfl | rfl <;> decide

theorem priority_nodup (certificate : Certificate) :
    (feedstockConsumptionPriorityByCertificate certificate).Nodup := by
  cases certificate <;> decide

theorem insertSorted_perm (feedstock : String) (l : List String) :
    List.Perm (insertSorted feedstock l) (feedstock :: l) := by
  induction l with
  | nil => exact List.Perm.refl _
  | cons other rest ih =>
    simp only [insertSorted]
    by_cases h : feedstockLt feedstock other = true
    · rw [if_pos h]
    · rw [if_neg h]
      exact List.Perm.trans (List.Perm.cons other ih) (List.Perm.swap feedstock other rest)

theorem sortFeedstocks_perm (l : List String) : List.Perm (sortFeedstocks l) l := by
  induction l with
  | nil => exact List.Perm.refl _
  | cons f rest ih =>
    simp only [sortFeedstocks]
    exact List.Perm.trans (insertSorted_perm f (sortFeedstocks rest)) (List.Perm.cons f ih)

theorem extraEligible_perm (pool : Pool) (certificate : Certificate) :
    List.Perm (extraEligibleFeedstocks pool certificate)
      (((pool.map Prod.fst).filter
          (fun feedstock => certificate ∈ getEligibleCertificatesForFeedstock feedstock)).filter
        (fun feedstock => feedstock ∉ feedstockConsumptionPriorityByCertificate certificate)) :=
  sortFeedstocks_perm _

theorem extraEligible_mem (pool : Pool) (certificate : Certificate) (feedstock : String) :
    feedstock ∈ extraEligibleFeedstocks pool certificate ↔
      feedstock ∈ pool.map Prod.fst ∧
        certificate ∈ getEligibleCertificatesForFeedstock feedstock ∧
        feedstock ∉ feedstockConsumptionPriorityByCertificate certificate := by
  rw [List.Perm.mem_iff (extraEligible_perm pool certificate)]
  simp [List.mem_filter]
  tauto

theorem mem_orderedFeedstocks_of_eligible (pool : Pool) (certificate : Certificate)
    (feedstock : String) (hmem : feedstock ∈ pool.map Prod.fst)
    (helig : certificate ∈ getEligibleCertificatesForFeedstock feedstock) :
    feedstock ∈ orderedFeedstocks pool certificate := by
  unfold orderedFeedstocks
  by_cases hp : feedstock ∈ feedstockConsumptionPriorityByCertificate certificate
  · exact List.mem_append_left _ hp
  · exact List.mem_append_right _
      ((extraEligible_mem pool certificate feedstock).mpr ⟨hmem, helig, hp⟩)

theorem orderedFeedstocks_eligible (pool : Pool) (certificate : Certificate)
    (feedstock : String) (h : feedstock ∈ orderedFeedstocks pool certificate) :
    certificate ∈ getEligibleCertificatesForFeedstock feedstock := by
  rcases List.mem_append.mp h with hp | he
  · exact priority_mem_eligible certificate feedstock hp
  · exact ((extraEligible_mem pool certificate feedstock).mp he).2.1

theorem orderedFeedstocks_nodup (pool : Pool) (certificate : Certificate)
    (h : (pool.map Prod.fst).Nodup) :
    (orderedFeedstocks pool certificate).Nodup := by
  unfold orderedFeedstocks
  rw [List.nodup_append]
  refine ⟨priority_nodup certificate, ?_, ?_⟩
  · rw [List.Perm.nodup_iff (extraEligible_perm pool certificate)]
    exact (h.filter _).filter _
  · intro a ha hb
    exact ((extraEligible_mem pool certificate a).mp hb).2.2 ha

/-! ### Characterizing `getCertificateRemainingFromPool` as a sum -/

/-- Sum of the gallons of exactly the pool entries whose feedstock is eligible
for the certificate (per-entry `if`-sum form). -/
def eligSum (pool : Pool) (certificate : Certificate) : ℚ :=
  (pool.map (fun entry =>
    if certificate ∈ getEligibleCertificatesForFeedstock entry.1 then entry.2 else 0)).sum

theorem remaining_foldl_shift (certificate : Certificate) (pool : Pool) (a : ℚ) :
    pool.foldl
        (fun sum entry =>
          if certificate ∈ getEligibleCertificatesForFeedstock entry.1 then sum + entry.2
          else sum) a
      = a + pool.foldl
        (fun sum entry =>
          if certificate ∈ getEligibleCertificatesForFeedstock entry.1 then sum + entry.2
          else sum) 0 := by
  induction pool generalizing a with
  | nil => simp
  | cons e rest ih =>
    rw [List.foldl_cons, List.foldl_cons,
      ih (if certificate ∈ getEligibleCertificatesForFeedstock e.1 then a + e.2 else a),
      ih (if certificate ∈ getEligibleCertificatesForFeedstock e.1 then 0 + e.2 else 0)]
    by_cases h : certificate ∈ getEligibleCertificatesForFeedstock e.1
    · rw [if_pos h, if_pos h]; ring
    · rw [if_neg h, if_neg h]; ring

theorem remaining_eq_eligSum (pool : Pool) (certificate : Certificate) :
    getCertificateRemainingFromPool pool certificate = eligSum pool certificate := by
  induction pool with
  | nil => rfl
  | cons e rest ih =>
    unfold getCertificateRemainingFromPool at ih ⊢
    rw [List.foldl_cons, remaining_foldl_shift, ih]
    unfold eligSum
    rw [List.map_cons, List.sum_cons]
    by_cases h : certificate ∈ getEligibleCertificatesForFeedstock e.1
    · rw [if_pos h, if_pos h]; ring
    · rw [if_neg h, if_neg h]

theorem remaining_cons (entry : String × ℚ) (rest : Pool) (certificate : Certificate) :
    getCertificateRemainingFromPool (entry :: rest) certificate =
      (if certificate ∈ getEligibleCertificatesForFeedstock entry.1 then entry.2 else 0) +
        getCertificateRemainingFromPool rest certificate := by
  rw [remaining_eq_eligSum, remaining_eq_eligSum]
  unfold eligSum
  rw [List.map_cons, List.sum_cons]

/-- The pool's keys that are eligible for a certificate. -/
def eligKeys (pool : Pool) (certificate : Certificate) : List String :=
  (pool.map Prod.fst).filter
    (fun feedstock => certificate ∈ getEligibleCertificatesForFeedstock feedstock)

theorem eligKeys_cons (entry : String × ℚ) (rest : Pool) (certificate : Certificate) :
    eligKeys (entry :: rest) certificate =
      if certificate ∈ getEligibleCertificatesForFeedstock entry.1 then
        entry.1 :: eligKeys rest certificate
      else eligKeys rest certificate := by
  unfold eligKeys
  rw [List.map_cons]
  by_cases h : certificate ∈ getEligibleCertificatesForFeedstock entry.1
  · rw [List.filter_cons_of_pos (by simp [h]), if_pos h]
  · rw [List.filter_cons_of_neg (by simp [h]), if_neg h]

theorem eligKeys_subset_keys (pool : Pool) (certificate : Certificate) :
    ∀ f ∈ eligKeys pool certificate, f ∈ pool.map Prod.fst := by
  intro f hf
  exact List.mem_of_mem_filter hf

theorem eligKeys_eligible (pool : Pool) (certificate : Certificate) :
    ∀ f ∈ eligKeys pool certificate,
      certificate ∈ getEligibleCertificatesForFeedstock f := by
  intro f hf
  have := List.of_mem_filter hf
  simpa using this

theorem eligSum_le_eligKeys_sum (pool : Pool) (certificate : Certificate)
    (hnodup : (pool.map Prod.fst).Nodup) :
    eligSum pool certificate ≤
      ((eligKeys pool certificate).map (fun f => max (poolLookup pool f) 0)).sum := by
  induction pool with
  | nil => simp [eligSum, eligKeys]
  | cons e rest ih =>
    rw [List.map_cons, List.nodup_cons] at hnodup
    have hmapeq : (eligKeys rest certificate).map (fun f => max (poolLookup (e :: rest) f) 0) =
        (eligKeys rest certificate).map (fun f => max (poolLookup rest f) 0) := by
      apply List.map_congr_left
      intro f hf
      have hfmem : f ∈ rest.map Prod.fst := eligKeys_subset_keys rest certificate f hf
      have hne : ¬e.1 = f := fun hh => hnodup.1 (hh ▸ hfmem)
      rw [poolLookup_cons, if_neg hne]
    have hrest := ih hnodup.2
    have heligsum : eligSum (e :: rest) certificate =
        (if certificate ∈ getEligibleCertificatesForFeedstock e.1 then e.2 else 0) +
          eligSum rest certificate := by
      unfold eligSum
      rw [List.map_cons, List.sum_cons]
    rw [heligsum, eligKeys_cons]
    by_cases h : certificate ∈ getEligibleCertificatesForFeedstock e.1
    · rw [if_pos h, if_pos h, List.map_cons, List.sum_cons, hmapeq]
      have hhead : poolLookup (e :: rest) e.1 = e.2 := by rw [poolLookup_cons, if_pos rfl]
      rw [hhead]
      have hle : e.2 ≤ max e.2 0 := le_max_left _ _
      linarith
    · rw [if_neg h, if_neg h, hmapeq]
      linarith

theorem eligKeys_nodup (pool : Pool) (certificate : Certificate)
    (h : (pool.map Prod.fst).Nodup) : (eligKeys pool certificate).Nodup :=
  h.filter _

theorem eligKeys_sum_le_ordered_sum (pool : Pool) (certificate : Certificate)
    (hnodup : (pool.map Prod.fst).Nodup) :
    ((eligKeys pool certificate).map (fun f => max (poolLookup pool f) 0)).sum ≤
      ((orderedFeedstocks pool certificate).map (fun f => max (poolLookup pool f) 0)).sum := by
  have hsub : eligKeys pool certificate ⊆ orderedFeedstocks pool certificate := by
    intro f hf
    exact mem_orderedFeedstocks_of_eligible pool certificate f
      (eligKeys_subset_keys pool certificate f hf) (eligKeys_eligible pool certificate f hf)
  have hsp : List.Subperm (eligKeys pool certificate) (orderedFeedstocks pool certificate) :=
    List.subperm_of_subset (eligKeys_nodup pool certificate hnodup) hsub
  obtain ⟨l, hperm, hsl⟩ := hsp
  calc ((eligKeys pool certificate).map (fun f => max (poolLookup pool f) 0)).sum
      = (l.map (fun f => max (poolLookup pool f) 0)).sum :=
        (List.Perm.sum_eq (List.Perm.map _ hperm)).symm
    _ ≤ ((orderedFeedstocks pool certificate).map (fun f => max (poolLookup pool f) 0)).sum := by
        apply List.Sublist.sum_le_sum (List.Sublist.map _ hsl)
        intro x hx
        rcases List.mem_map.mp hx with ⟨g, _, rfl⟩
        exact le_max_right _ _

theorem remaining_le_ordered_sum (pool : Pool) (certificate : Certificate)
    (hnodup : (pool.map Prod.fst).Nodup) :
    getCertificateRemainingFromPool pool certificate ≤
      ((orderedFeedstocks pool certificate).map (fun f => max (poolLookup pool f) 0)).sum := by
  rw [remaining_eq_eligSum]
  exact le_trans (eligSum_le_eligKeys_sum pool certificate hnodup)
    (eligKeys_sum_le_ordered_sum pool certificate hnodup)

theorem epsilon_nonneg : (0 : ℚ) ≤ epsilon := by norm_num [epsilon]

/-- Core of the unreachability argument: a request within `epsilon` of the
certificate's remaining total is satisfied by the consumption traversal up to
at most `epsilon` of leftover. -/
theorem consume_leftover_le_epsilon (pool : Pool) (certificate : Certificate)
    (requestedGallons : ℚ) (hnodup : (pool.map Prod.fst).Nodup)
    (h : requestedGallons ≤ getCertificateRemainingFromPool pool certificate + epsilon) :
    (consumeFromSharedPool pool certificate requestedGallons).2 ≤ epsilon := by
  unfold consumeFromSharedPool
  have hb := consumeFold_rr_bound (orderedFeedstocks pool certificate)
    (pool, requestedGallons) (orderedFeedstocks_nodup pool certificate hnodup)
  have hc := remaining_le_ordered_sum pool certificate hnodup
  refine le_trans hb (max_le ?_ epsilon_nonneg)
  linarith

/-! ### `commitSaleRow` and `commitLoop` lemmas -/

theorem consumeFromSharedPool_keys (pool : Pool) (certificate : Certificate)
    (requestedGallons : ℚ) :
    ((consumeFromSharedPool pool certificate requestedGallons).1).map Prod.fst =
      pool.map Prod.fst :=
  consumeFold_keys _ _

/-- Each `forEach` iteration of the commit loop either appends exactly one
error keyed by the row's own id and leaves the draft pool and the committed
rows alone, or commits the row: it consumes the validated amount from the
draft pool (with leftover at most `epsilon`) and appends one history row. -/
theorem commitSaleRow_cases (mkHistoryId : String → String) (acc : CommitLoopState)
    (row : SaleRow) :
    (∃ err, commitSaleRow mkHistoryId acc row =
        { acc with nextErrors := acc.nextErrors ++ [(row.id, err)] }) ∨
    (∃ a, row.amountGal = some a ∧ 0 < a ∧
      a ≤ getCertificateRemainingFromPool acc.draftPool row.certificate + epsilon ∧
      (consumeFromSharedPool acc.draftPool row.certificate a).2 ≤ epsilon ∧
      commitSaleRow mkHistoryId acc row =
        { acc with
          draftPool := (consumeFromSharedPool acc.draftPool row.certificate a).1
          committedRows := acc.committedRows ++
            [{ id := mkHistoryId row.id
               certificate := row.certificate
               amountGal := a
               buyerName := jsTrim row.buyerName
               country := jsTrim row.country }] }) := by
  cases hA : row.amountGal with
  | none =>
    left
    exact ⟨SaleError.invalidAmount, by simp [commitSaleRow, hA]⟩
  | some a =>
    simp only [commitSaleRow, hA]
    by_cases h1 : a ≤ 0
    · left
      exact ⟨SaleError.invalidAmount, by rw [if_pos h1]⟩
    · rw [if_neg h1]
      by_cases h2 : jsTrim row.buyerName = ""
      · left
        exact ⟨SaleError.missingBuyer, by rw [if_pos h2]⟩
      · rw [if_neg h2]
        by_cases h3 : jsTrim row.country = ""
        · left
          exact ⟨SaleError.missingCountry, by rw [if_pos h3]⟩
        · rw [if_neg h3]
          by_cases h4 :
              getCertificateRemainingFromPool acc.draftPool row.certificate + epsilon < a
          · left
            exact ⟨SaleError.oversell row.certificate
              (getCertificateRemainingFromPool acc.draftPool row.certificate),
              by rw [if_pos h4]⟩
          · rw [if_neg h4]
            by_cases h5 :
                epsilon < (consumeFromSharedPool acc.draftPool row.certificate a).2
            · left
              exact ⟨SaleError.allocationFailed, by rw [if_pos h5]⟩
            · right
              exact ⟨a, rfl, lt_of_not_le h1, le_of_not_lt h4, le_of_not_lt h5,
                by rw [if_neg h5]⟩

theorem commitSaleRow_keys (mkHistoryId : String → String) (acc : CommitLoopState)
    (row : SaleRow) :
    ((commitSaleRow mkHistoryId acc row).draftPool).map Prod.fst =
      acc.draftPool.map Prod.fst := by
  rcases commitSaleRow_cases mkHistoryId acc row with ⟨err, heq⟩ | ⟨a, _, _, _, _, heq⟩
  · rw [heq]
  · rw [heq]
    exact consumeFromSharedPool_keys _ _ _

theorem commitSaleRow_nonneg (mkHistoryId : String → String) (acc : CommitLoopState)
    (row : SaleRow) (h : ∀ e ∈ acc.draftPool, 0 ≤ e.2) :
    ∀ e ∈ (commitSaleRow mkHistoryId acc row).draftPool, 0 ≤ e.2 := by
  rcases commitSaleRow_cases mkHistoryId acc row with ⟨err, heq⟩ | ⟨a, _, _, _, _, heq⟩
  · rw [heq]
    exact h
  · rw [heq]
    exact consumeFold_nonneg _ _ h

theorem commitSaleRow_errors (mkHistoryId : String → String) (acc : CommitLoopState)
    (row : SaleRow) :
    ∃ extra, (commitSaleRow mkHistoryId acc row).nextErrors = acc.nextErrors ++ extra ∧
      List.Sublist (extra.map Prod.fst) [row.id] := by
  rcases commitSaleRow_cases mkHistoryId acc row with ⟨err, heq⟩ | ⟨a, _, _, _, _, heq⟩
  · exact ⟨[(row.id, err)], by rw [heq], by simp⟩
  · exact ⟨[], by rw [heq]; simp, by simp⟩

theorem commitSaleRow_committed (mkHistoryId : String → String) (acc : CommitLoopState)
    (row : SaleRow) :
    ∃ extra, (commitSaleRow mkHistoryId acc row).committedRows =
      acc.committedRows ++ extra := by
  rcases commitSaleRow_cases mkHistoryId acc row with ⟨err, heq⟩ | ⟨a, _, _, _, _, heq⟩
  · exact ⟨[], by rw [heq]; simp⟩
  · refine ⟨_, by rw [heq]⟩

theorem commitSaleRow_no_alloc (mkHistoryId : String → String) (acc : CommitLoopState)
    (row : SaleRow) (hnodup : (acc.draftPool.map Prod.fst).Nodup)
    (h : SaleError.allocationFailed ∉ acc.nextErrors.map Prod.snd) :
    SaleError.allocationFailed ∉ (commitSaleRow mkHistoryId acc row).nextErrors.map Prod.snd := by
  cases hA : row.amountGal with
  | none => simp [commitSaleRow, hA, h]
  | some a =>
    simp only [commitSaleRow, hA]
    split_ifs with h1 h2 h3 h4 h5
    · simp [h]
    · simp [h]
    · simp [h]
    · simp [h]
    · exfalso
      have hok := consume_leftover_le_epsilon acc.draftPool row.certificate a hnodup
        (le_of_not_lt h4)
      exact absurd hok (not_le_of_lt h5)
    · simpa using h

theorem sumCommitted_nil : sumCommitted [] = 0 := rfl

theorem sumCommitted_append (l l' : List SaleHistoryRow) :
    sumCommitted (l ++ l') = sumCommitted l + sumCommitted l' := by
  simp [sumCommitted]

theorem sumCommitted_single (row : SaleHistoryRow) : sumCommitted [row] = row.amountGal := by
  simp [sumCommitted]

theorem commitSaleRow_sum_bounds (mkHistoryId : String → String) (acc : CommitLoopState)
    (row : SaleRow) (hnodup : (acc.draftPool.map Prod.fst).Nodup) :
    sumPool acc.draftPool - sumPool (commitSaleRow mkHistoryId acc row).draftPool ≤
        sumCommitted (commitSaleRow mkHistoryId acc row).committedRows -
          sumCommitted acc.committedRows ∧
      sumCommitted (commitSaleRow mkHistoryId acc row).committedRows -
            sumCommitted acc.committedRows -
          (((commitSaleRow mkHistoryId acc row).committedRows.length : ℚ) -
            (acc.committedRows.length : ℚ)) * epsilon ≤
        sumPool acc.draftPool - sumPool (commitSaleRow mkHistoryId acc row).draftPool := by
  rcases commitSaleRow_cases mkHistoryId acc row with ⟨err, heq⟩ | ⟨a, hA, hpos, hle, heps, heq⟩
  · rw [heq]
    constructor <;> simp
  · rw [heq]
    have hsum := consumeFold_sum (orderedFeedstocks acc.draftPool row.certificate)
      (acc.draftPool, a) hnodup
    have hrr0 : 0 ≤ (consumeFromSharedPool acc.draftPool row.certificate a).2 :=
      consumeFold_rr_nonneg _ _ (le_of_lt hpos)
    unfold consumeFromSharedPool at hrr0 heps
    simp only [sumCommitted_append, sumCommitted_single, List.length_append,
      List.length_singleton]
    unfold consumeFromSharedPool
    push_cast
    constructor <;> linarith

theorem commitFold_keys (mkHistoryId : String → String) (rows : List SaleRow) :
    ∀ acc : CommitLoopState,
      ((rows.foldl (commitSaleRow mkHistoryId) acc).draftPool).map Prod.fst =
        acc.draftPool.map Prod.fst := by
  induction rows with
  | nil => intro acc; rfl
  | cons row rest ih =>
    intro acc
    rw [List.foldl_cons, ih, commitSaleRow_keys]

theorem commitFold_nonneg (mkHistoryId : String → String) (rows : List SaleRow) :
    ∀ acc : CommitLoopState, (∀ e ∈ acc.draftPool, 0 ≤ e.2) →
      ∀ e ∈ (rows.foldl (commitSaleRow mkHistoryId) acc).draftPool, 0 ≤ e.2 := by
  induction rows with
  | nil => intro acc h; exact h
  | cons row rest ih =>
    intro acc h
    exact ih _ (commitSaleRow_nonneg mkHistoryId acc row h)

theorem commitFold_errors (mkHistoryId : String → String) (rows : List SaleRow) :
    ∀ acc : CommitLoopState, ∃ extra,
      (rows.foldl (commitSaleRow mkHistoryId) acc).nextErrors = acc.nextErrors ++ extra ∧
        List.Sublist (extra.map Prod.fst) (rows.map SaleRow.id) := by
  induction rows with
  | nil => intro acc; exact ⟨[], by simp, by simp⟩
  | cons row rest ih =>
    intro acc
    obtain ⟨e1, he1, hs1⟩ := commitSaleRow_errors mkHistoryId acc row
    obtain ⟨e2, he2, hs2⟩ := ih (commitSaleRow mkHistoryId acc row)
    refine ⟨e1 ++ e2, ?_, ?_⟩
    · rw [List.foldl_cons, he2, he1, List.append_assoc]
    · rw [List.map_cons, List.map_append]
      exact List.Sublist.append hs1 hs2

theorem commitFold_committed (mkHistoryId : String → String) (rows : List SaleRow) :
    ∀ acc : CommitLoopState, ∃ extra,
      (rows.foldl (commitSaleRow mkHistoryId) acc).committedRows =
        acc.committedRows ++ extra := by
  induction rows with
  | nil => intro acc; exact ⟨[], by simp⟩
  | cons row rest ih =>
    intro acc
    obtain ⟨e1, he1⟩ := commitSaleRow_committed mkHistoryId acc row
    obtain ⟨e2, he2⟩ := ih (commitSaleRow mkHistoryId acc row)
    exact ⟨e1 ++ e2, by rw [List.foldl_cons, he2, he1, List.append_assoc]⟩

theorem commitFold_no_alloc (mkHistoryId : String → String) (rows : List SaleRow) :
    ∀ acc : CommitLoopState, (acc.draftPool.map Prod.fst).Nodup →
      SaleError.allocationFailed ∉ acc.nextErrors.map Prod.snd →
      SaleError.allocationFailed ∉
        (rows.foldl (commitSaleRow mkHistoryId) acc).nextErrors.map Prod.snd := by
  induction rows with
  | nil => intro acc _ h; exact h
  | cons row rest ih =>
    intro acc hnodup h
    rw [List.foldl_cons]
    refine ih _ ?_ (commitSaleRow_no_alloc mkHistoryId acc row hnodup h)
    rw [commitSaleRow_keys]
    exact hnodup

theorem commitFold_sum_bounds (mkHistoryId : String → String) (rows : List SaleRow) :
    ∀ acc : CommitLoopState, (acc.draftPool.map Prod.fst).Nodup →
      sumPool acc.draftPool -
          sumPool (rows.foldl (commitSaleRow mkHistoryId) acc).draftPool ≤
        sumCommitted (rows.foldl (commitSaleRow mkHistoryId) acc).committedRows -
          sumCommitted acc.committedRows ∧
      sumCommitted (rows.foldl (commitSaleRow mkHistoryId) acc).committedRows -
            sumCommitted acc.committedRows -
          (((rows.foldl (commitSaleRow mkHistoryId) acc).committedRows.length : ℚ) -
            (acc.committedRows.length : ℚ)) * epsilon ≤
        sumPool acc.draftPool -
          sumPool (rows.foldl (commitSaleRow mkHistoryId) acc).draftPool := by
  induction rows with
  | nil => intro acc _; constructor <;> simp
  | cons row rest ih =>
    intro acc hnodup
    rw [List.foldl_cons]
    have hstep := commitSaleRow_sum_bounds mkHistoryId acc row hnodup
    have hnodup' : (((commitSaleRow mkHistoryId acc row).draftPool).map Prod.fst).Nodup := by
      rw [commitSaleRow_keys]; exact hnodup
    have hrest := ih (commitSaleRow mkHistoryId acc row) hnodup'
    constructor <;> linarith [hstep.1, hstep.2, hrest.1, hrest.2]

theorem handleCommitSales_of_errors (mkHistoryId : String → String) (freshRowId : String)
    (state : SalesState) (h : (commitLoop mkHistoryId state).nextErrors ≠ []) :
    handleCommitSales mkHistoryId freshRowId state =
      { state with saleErrors := (commitLoop mkHistoryId state).nextErrors } := by
  simp only [handleCommitSales]
  rw [if_pos h]

theorem handleCommitSales_of_no_commit (mkHistoryId : String → String) (freshRowId : String)
    (state : SalesState) (h1 : (commitLoop mkHistoryId state).nextErrors = [])
    (h2 : (commitLoop mkHistoryId state).committedRows = []) :
    handleCommitSales mkHistoryId freshRowId state = state := by
  simp only [handleCommitSales]
  rw [if_neg (not_not_intro h1), if_pos h2]

theorem handleCommitSales_of_success (mkHistoryId : String → String) (freshRowId : String)
    (state : SalesState) (h1 : (commitLoop mkHistoryId state).nextErrors = [])
    (h2 : (commitLoop mkHistoryId state).committedRows ≠ []) :
    handleCommitSales mkHistoryId freshRowId state =
      { remainingPoolByFeedstock := (commitLoop mkHistoryId state).draftPool
        saleRows := [createEmptySaleRow freshRowId]
        saleErrors := []
        salesHistory := state.salesHistory ++ (commitLoop mkHistoryId state).committedRows
        soldByCertificateTxn := (commitLoop mkHistoryId state).committedRows.foldl
          (fun sold row => addSold sold row.certificate row.amountGal)
          state.soldByCertificateTxn } := by
  simp only [handleCommitSales]
  rw [if_neg (not_not_intro h1), if_neg h2]

theorem commitLoop_errors_sublist (mkHistoryId : String → String) (state : SalesState) :
    List.Sublist ((commitLoop mkHistoryId state).nextErrors.map Prod.fst)
      (state.saleRows.map SaleRow.id) := by
  obtain ⟨extra, he, hs⟩ := commitFold_errors mkHistoryId state.saleRows
    { nextErrors := []
      draftPool := state.remainingPoolByFeedstock
      committedRows := [] }
  unfold commitLoop
  rw [he]
  simpa using hs

/-! ### Example rows and states used by the concrete scenarios -/

/-- A valid proposed sale: 10 gal under ISCC for buyer Acme/US. -/
def exampleValidRow : SaleRow :=
  { id := "sale-row-1"
    certificate := Certificate.ISCC
    amountGal := some 10
    buyerName := "Acme"
    country := "US" }

/-- An invalid proposed sale: empty buyer name. -/
def exampleNoBuyerRow : SaleRow :=
  { id := "sale-row-2"
    certificate := Certificate.ISCC
    amountGal := some 5
    buyerName := ""
    country := "US" }

/-- Batch of two line items, first valid, second invalid (empty buyer name). -/
def exampleBatchState : SalesState :=
  { remainingPoolByFeedstock := examplePool
    saleRows := [exampleValidRow, exampleNoBuyerRow]
    saleErrors := []
    salesHistory := []
    soldByCertificateTxn := { ISCC := 0, LCFS := 0, RFS := 0 } }

/-- Oversold proposed sale: 60 gal under RFS against 50 RFS-eligible gallons. -/
def exampleOversellRow : SaleRow :=
  { id := "sale-row-3"
    certificate := Certificate.RFS
    amountGal := some 60
    buyerName := "Acme"
    country := "US" }

/-- Single-item oversell batch over the example pool. -/
def exampleOversellState : SalesState :=
  { remainingPoolByFeedstock := examplePool
    saleRows := [exampleOversellRow]
    saleErrors := []
    salesHistory := []
    soldByCertificateTxn := { ISCC := 0, LCFS := 0, RFS := 0 } }

/-- Valid proposed sale of 80 gal under ISCC (the spec's commit example). -/
def exampleCommitRow : SaleRow :=
  { id := "sale-row-4"
    certificate := Certificate.ISCC
    amountGal := some 80
    buyerName := "Acme"
    country := "US" }

/-- Single-item successful batch over the example pool. -/
def exampleCommitState : SalesState :=
  { remainingPoolByFeedstock := examplePool
    saleRows := [exampleCommitRow]
    saleErrors := []
    salesHistory := []
    soldByCertificateTxn := { ISCC := 0, LCFS := 0, RFS := 0 } }

/-! ### Claim theorems -/

/-- C1: Commit is all-or-nothing. If any line item of the batch produced an
error, `handleCommitSales` leaves the pool, the sales history and the
per-certificate sold totals exactly as they were, publishes exactly the
collected errors, and every error is keyed by the id of a distinct row of the
batch (in batch order: the error keys form a sublist of the batch's row ids,
with at most one error per row). -/
theorem commit_all_or_nothing (mkHistoryId : String → String) (freshRowId : String)
    (state : SalesState) (h : (commitLoop mkHistoryId state).nextErrors ≠ []) :
    (handleCommitSales mkHistoryId freshRowId state).remainingPoolByFeedstock =
        state.remainingPoolByFeedstock ∧
      (handleCommitSales mkHistoryId freshRowId state).salesHistory = state.salesHistory ∧
      (handleCommitSales mkHistoryId freshRowId state).soldByCertificateTxn =
        state.soldByCertificateTxn ∧
      (handleCommitSales mkHistoryId freshRowId state).saleErrors =
        (commitLoop mkHistoryId state).nextErrors ∧
      List.Sublist ((commitLoop mkHistoryId state).nextErrors.map Prod.fst)
        (state.saleRows.map SaleRow.id) := by
  rw [handleCommitSales_of_errors mkHistoryId freshRowId state h]
  exact ⟨rfl, rfl, rfl, rfl, commitLoop_errors_sublist mkHistoryId state⟩

/-- Witness for C1: the batch (valid item, item with empty buyer) is rejected
whole — the pool stays the example pool, no history is written, and the only
error reported is the second row's missing-buyer error under its own id. -/
theorem commit_all_or_nothing_witness :
    (commitLoop (fun s => s) exampleBatchState).nextErrors =
        [("sale-row-2", SaleError.missingBuyer)] ∧
      (handleCommitSales (fun s => s) "fresh" exampleBatchState).remainingPoolByFeedstock =
        examplePool ∧
      (handleCommitSales (fun s => s) "fresh" exampleBatchState).salesHistory = [] ∧
      (handleCommitSales (fun s => s) "fresh" exampleBatchState).saleErrors =
        [("sale-row-2", SaleError.missingBuyer)] := by
  have hloop : (commitLoop (fun s => s) exampleBatchState).nextErrors =
      [("sale-row-2", SaleError.missingBuyer)] := by
    norm_num +decide [commitLoop, exampleBatchState, exampleValidRow, exampleNoBuyerRow,
      commitSaleRow, jsTrim, getCertificateRemainingFromPool, getEligibleCertificatesForFeedstock,
      eligibleCertificationsByFeedstock, epsilon, consumeFromSharedPool, orderedFeedstocks,
      extraEligibleFeedstocks, feedstockConsumptionPriorityByCertificate, sortFeedstocks,
      insertSorted, feedstockLt, lexLt, consumeStep, poolLookup, poolSet, examplePool]
  have h := commit_all_or_nothing (fun s => s) "fresh" exampleBatchState
    (by rw [hloop]; simp)
  refine ⟨hloop, by rw [h.1]; rfl, by rw [h.2.1]; rfl, by rw [h.2.2.2.1, hloop]⟩

/-- C2: Oversell rejection. A line item with a valid amount, buyer and country
whose requested gallons exceed the certificate's remaining total (computed
from the working pool) plus `epsilon` only appends an oversell error keyed by
its own row id, carrying the actual remaining amount; the draft pool and the
committed rows are untouched. -/
theorem oversell_rejected (mkHistoryId : String → String) (acc : CommitLoopState)
    (row : SaleRow) (a : ℚ) (hA : row.amountGal = some a) (hpos : 0 < a)
    (hbuyer : jsTrim row.buyerName ≠ "") (hcountry : jsTrim row.country ≠ "")
    (hover : getCertificateRemainingFromPool acc.draftPool row.certificate + epsilon < a) :
    commitSaleRow mkHistoryId acc row =
      { acc with nextErrors := acc.nextErrors ++
          [(row.id, SaleError.oversell row.certificate
            (getCertificateRemainingFromPool acc.draftPool row.certificate))] } := by
  simp only [commitSaleRow, hA]
  rw [if_neg (not_le_of_lt hpos), if_neg hbuyer, if_neg hcountry, if_pos hover]

/-- Witness for C2: committing the single-item batch `{RFS, 60, Acme, US}`
against the example pool (50 RFS-eligible gallons) fails with an oversell
error citing 50 remaining and leaves the pool unchanged. -/
theorem oversell_rejected_witness :
    commitSaleRow (fun s => s)
        { nextErrors := [], draftPool := examplePool, committedRows := [] }
        exampleOversellRow =
      { nextErrors := [("sale-row-3", SaleError.oversell Certificate.RFS 50)]
        draftPool := examplePool
        committedRows := [] } ∧
    (handleCommitSales (fun s => s) "fresh" exampleOversellState).remainingPoolByFeedstock =
      examplePool ∧
    (handleCommitSales (fun s => s) "fresh" exampleOversellState).saleErrors =
      [("sale-row-3", SaleError.oversell Certificate.RFS 50)] := by
  have h := oversell_rejected (fun s => s)
    { nextErrors := [], draftPool := examplePool, committedRows := [] }
    exampleOversellRow 60 rfl (by norm_num) (by decide) (by decide)
    (by norm_num +decide [examplePool, exampleOversellRow, getCertificateRemainingFromPool,
      getEligibleCertificatesForFeedstock, eligibleCertificationsByFeedstock, epsilon])
  refine ⟨?_, ?_, ?_⟩
  · rw [h]
    norm_num +decide [examplePool, exampleOversellRow, getCertificateRemainingFromPool,
      getEligibleCertificatesForFeedstock, eligibleCertificationsByFeedstock]
  · norm_num +decide [handleCommitSales, commitLoop, exampleOversellState, exampleOversellRow,
      commitSaleRow, jsTrim, getCertificateRemainingFromPool, getEligibleCertificatesForFeedstock,
      eligibleCertificationsByFeedstock, epsilon, examplePool]
  · norm_num +decide [handleCommitSales, commitLoop, exampleOversellState, exampleOversellRow,
      commitSaleRow, jsTrim, getCertificateRemainingFromPool, getEligibleCertificatesForFeedstock,
      eligibleCertificationsByFeedstock, epsilon, examplePool]

theorem eligSum_cons (entry : String × ℚ) (rest : Pool) (certificate : Certificate) :
    eligSum (entry :: rest) certificate =
      (if certificate ∈ getEligibleCertificatesForFeedstock entry.1 then entry.2 else 0) +
        eligSum rest certificate := by
  unfold eligSum
  rw [List.map_cons, List.sum_cons]

theorem filter_map_sum_eq_eligSum (pool : Pool) (certificate : Certificate) :
    ((pool.filter (fun entry =>
        certificate ∈ getEligibleCertificatesForFeedstock entry.1)).map Prod.snd).sum =
      eligSum pool certificate := by
  induction pool with
  | nil => rfl
  | cons e rest ih =>
    rw [eligSum_cons]
    by_cases h : certificate ∈ getEligibleCertificatesForFeedstock e.1
    · rw [List.filter_cons_of_pos (by simp [h]), List.map_cons, List.sum_cons, if_pos h, ih]
    · rw [List.filter_cons_of_neg (by simp [h]), if_neg h, ih]
      ring

/-- C5: Shared-pool overlap semantics of the allocation read.
`getCertificateRemainingFromPool` sums the gallons of exactly those pool
entries whose feedstock is eligible for the certificate (so multi-eligible
gallons count toward every eligible certificate simultaneously); on the
example pool with the shipped eligibility (`UCO → [LCFS, ISCC]`,
`Soybean → [RFS]`) it returns ISCC = 100, LCFS = 100, RFS = 50. -/
theorem remaining_counts_shared_pool :
    (∀ (pool : Pool) (certificate : Certificate),
      getCertificateRemainingFromPool pool certificate =
        ((pool.filter (fun entry =>
          certificate ∈ getEligibleCertificatesForFeedstock entry.1)).map Prod.snd).sum) ∧
    getEligibleCertificatesForFeedstock "UCO" = [Certificate.LCFS, Certificate.ISCC] ∧
    getEligibleCertificatesForFeedstock "Soybean" = [Certificate.RFS] ∧
    getCertificateRemainingFromPool examplePool Certificate.ISCC = 100 ∧
    getCertificateRemainingFromPool examplePool Certificate.LCFS = 100 ∧
    getCertificateRemainingFromPool examplePool Certificate.RFS = 50 := by
  refine ⟨fun pool certificate => ?_, by decide, by decide, ?_, ?_, ?_⟩
  · rw [remaining_eq_eligSum, filter_map_sum_eq_eligSum]
  all_goals
    norm_num +decide [examplePool, getCertificateRemainingFromPool,
      getEligibleCertificatesForFeedstock, eligibleCertificationsByFeedstock]

/-- C6: No negative lots. If every lot of the live pool is nonnegative, then
after any call to `handleCommitSales` — whether the batch succeeds, fails, or
commits nothing — every lot of the resulting pool is still nonnegative. -/
theorem no_negative_lots (mkHistoryId : String → String) (freshRowId : String)
    (state : SalesState) (h : ∀ e ∈ state.remainingPoolByFeedstock, 0 ≤ e.2) :
    ∀ e ∈ (handleCommitSales mkHistoryId freshRowId state).remainingPoolByFeedstock,
      0 ≤ e.2 := by
  by_cases h1 : (commitLoop mkHistoryId state).nextErrors = []
  · by_cases h2 : (commitLoop mkHistoryId state).committedRows = []
    · rw [handleCommitSales_of_no_commit mkHistoryId freshRowId state h1 h2]
      exact h
    · rw [handleCommitSales_of_success mkHistoryId freshRowId state h1 h2]
      intro e he
      refine commitFold_nonneg mkHistoryId state.saleRows
        { nextErrors := []
          draftPool := state.remainingPoolByFeedstock
          committedRows := [] } h e ?_
      simpa [commitLoop] using he
  · rw [handleCommitSales_of_errors mkHistoryId freshRowId state h1]
    exact h

/-- Witness for C6: the successful 80-gal ISCC commit on the example pool
starts from a nonnegative pool, ends in the pool `{UCO: 20, Soybean: 50}`,
and every resulting lot is nonnegative. -/
theorem no_negative_lots_witness :
    (∀ e ∈ exampleCommitState.remainingPoolByFeedstock, 0 ≤ e.2) ∧
    (handleCommitSales (fun s => s) "fresh" exampleCommitState).remainingPoolByFeedstock =
      [("UCO", 20), ("Soybean", 50)] ∧
    ∀ e ∈ (handleCommitSales (fun s => s) "fresh" exampleCommitState).remainingPoolByFeedstock,
      0 ≤ e.2 := by
  have hpos : ∀ e ∈ exampleCommitState.remainingPoolByFeedstock, 0 ≤ e.2 := by
    intro e he
    simp [exampleCommitState, examplePool] at he
    rcases he with rfl | rfl <;> norm_num
  refine ⟨hpos, ?_, no_negative_lots (fun s => s) "fresh" exampleCommitState hpos⟩
  norm_num +decide [handleCommitSales, commitLoop, exampleCommitState, exampleCommitRow,
    commitSaleRow, jsTrim, getCertificateRemainingFromPool, getEligibleCertificatesForFeedstock,
    eligibleCertificationsByFeedstock, epsilon, consumeFromSharedPool, orderedFeedstocks,
    extraEligibleFeedstocks, feedstockConsumptionPriorityByCertificate, sortFeedstocks,
    insertSorted, feedstockLt, lexLt, consumeStep, poolLookup, poolSet, examplePool,
    createEmptySaleRow, addSold]

/-- C10: Frame property of consumption. Every feedstock in a certificate's
shipped priority list is itself eligible for that certificate, and
`consumeFromSharedPool` leaves the gallons of every pool feedstock that is not
eligible for the sale's certificate exactly unchanged. -/
theorem consume_frame_ineligible :
    (∀ (certificate : Certificate) (feedstock : String),
      feedstock ∈ feedstockConsumptionPriorityByCertificate certificate →
        certificate ∈ getEligibleCertificatesForFeedstock feedstock) ∧
    ∀ (pool : Pool) (certificate : Certificate) (requestedGallons : ℚ) (feedstock : String),
      certificate ∉ getEligibleCertificatesForFeedstock feedstock →
        poolLookup (consumeFromSharedPool pool certificate requestedGallons).1 feedstock =
          poolLookup pool feedstock := by
  constructor
  · exact fun certificate feedstock h => priority_mem_eligible certificate feedstock h
  · intro pool certificate requestedGallons feedstock hne
    unfold consumeFromSharedPool
    apply consumeFold_frame
    intro hmem
    exact hne (orderedFeedstocks_eligible pool certificate feedstock hmem)

/-- Witness for C10: a 30-gal RFS sale never touches the (RFS-ineligible) UCO
lot of the example pool. -/
theorem consume_frame_ineligible_witness :
    Certificate.RFS ∉ getEligibleCertificatesForFeedstock "UCO" ∧
    poolLookup (consumeFromSharedPool examplePool Certificate.RFS 30).1 "UCO" =
      poolLookup examplePool "UCO" :=
  ⟨by decide, consume_frame_ineligible.2 examplePool Certificate.RFS 30 "UCO" (by decide)⟩

/-- C7: The hard allocation error is unreachable. Under the shipped
eligibility and priority configuration (and a pool with distinct keys, as a
JS object guarantees): any request within `epsilon` of the certificate's
remaining total leaves a leftover of at most `epsilon` after the full
consumption traversal, and consequently the commit loop never records the
`Unable to allocate requested sale amount from shared pool` error
(`SaleError.allocationFailed`). -/
theorem allocation_error_unreachable :
    (∀ (pool : Pool) (certificate : Certificate) (requestedGallons : ℚ),
      (pool.map Prod.fst).Nodup →
      requestedGallons ≤ getCertificateRemainingFromPool pool certificate + epsilon →
      (consumeFromSharedPool pool certificate requestedGallons).2 ≤ epsilon) ∧
    ∀ (mkHistoryId : String → String) (state : SalesState),
      ((state.remainingPoolByFeedstock).map Prod.fst).Nodup →
      SaleError.allocationFailed ∉ (commitLoop mkHistoryId state).nextErrors.map Prod.snd := by
  constructor
  · exact fun pool certificate requestedGallons hnodup h =>
      consume_leftover_le_epsilon pool certificate requestedGallons hnodup h
  · intro mkHistoryId state hnodup
    unfold commitLoop
    exact commitFold_no_alloc mkHistoryId state.saleRows
      { nextErrors := []
        draftPool := state.remainingPoolByFeedstock
        committedRows := [] } hnodup (by simp)

/-- Witness for C7: the 80-gal ISCC request on the example pool is within the
remaining total, its traversal leftover is (at most) `epsilon`, and the
oversized single-item RFS batch produces only an oversell error — never the
allocation error. -/
theorem allocation_error_unreachable_witness :
    ((examplePool.map Prod.fst).Nodup ∧
      (80 : ℚ) ≤ getCertificateRemainingFromPool examplePool Certificate.ISCC + epsilon) ∧
    (consumeFromSharedPool examplePool Certificate.ISCC 80).2 ≤ epsilon ∧
    SaleError.allocationFailed ∉
      (commitLoop (fun s => s) exampleOversellState).nextErrors.map Prod.snd := by
  have h1 : (examplePool.map Prod.fst).Nodup := by decide
  have h2 : (80 : ℚ) ≤ getCertificateRemainingFromPool examplePool Certificate.ISCC + epsilon := by
    norm_num +decide [examplePool, getCertificateRemainingFromPool,
      getEligibleCertificatesForFeedstock, eligibleCertificationsByFeedstock, epsilon]
  refine ⟨⟨h1, h2⟩, allocation_error_unreachable.1 examplePool Certificate.ISCC 80 h1 h2, ?_⟩
  exact allocation_error_unreachable.2 (fun s => s) exampleOversellState (by decide)

/-- A committed sale sitting in the history. -/
def exampleHistoryRow : SaleHistoryRow :=
  { id := "history-1"
    certificate := Certificate.ISCC
    amountGal := 10
    buyerName := "Acme"
    country := "US" }

/-- Component state holding one committed sale in its history. -/
def exampleHistoryState : SalesState :=
  { remainingPoolByFeedstock := examplePool
    saleRows := []
    saleErrors := []
    salesHistory := [exampleHistoryRow]
    soldByCertificateTxn := { ISCC := 10, LCFS := 0, RFS := 0 } }

/-- Counterexample to C8: a pool replacement (the effect keyed on the
recomputed `producedByFeedstockSignature`, e.g. after a new date range)
resets `salesHistory` to `[]`, deleting the committed record — so committed
sales do not survive every subsequent operation of the component. -/
theorem salesHistory_reset_deletes_committed :
    exampleHistoryState.salesHistory = [exampleHistoryRow] ∧
    (poolResetEffect [("UCO", 40)] "fresh-row" exampleHistoryState).salesHistory = [] := by
  constructor <;> rfl

/-- C8 (amended): commits never mutate or delete committed records —
`handleCommitSales` only ever appends to `salesHistory` — but a pool
replacement triggered by recomputed upstream inputs resets the history to
empty rather than preserving it. -/
theorem salesHistory_append_only_under_commit :
    (∀ (mkHistoryId : String → String) (freshRowId : String) (state : SalesState),
      ∃ suffix, (handleCommitSales mkHistoryId freshRowId state).salesHistory =
        state.salesHistory ++ suffix) ∧
    ∀ (parsedEntries : Pool) (freshRowId : String) (state : SalesState),
      (poolResetEffect parsedEntries freshRowId state).salesHistory = [] := by
  constructor
  · intro mkHistoryId freshRowId state
    by_cases h1 : (commitLoop mkHistoryId state).nextErrors = []
    · by_cases h2 : (commitLoop mkHistoryId state).committedRows = []
      · rw [handleCommitSales_of_no_commit mkHistoryId freshRowId state h1 h2]
        exact ⟨[], by simp⟩
      · rw [handleCommitSales_of_success mkHistoryId freshRowId state h1 h2]
        exact ⟨(commitLoop mkHistoryId state).committedRows, rfl⟩
    · rw [handleCommitSales_of_errors mkHistoryId freshRowId state h1]
      exact ⟨[], by simp⟩
  · intro parsedEntries freshRowId state
    rfl

/-- Proposed sale whose amount exceeds the eligible total by exactly
`epsilon`: `50 + 1e-6` gal under RFS. -/
def conservationGapRow : SaleRow :=
  { id := "sale-row-5"
    certificate := Certificate.RFS
    amountGal := some (50 + 1 / 1000000)
    buyerName := "Acme"
    country := "US" }

/-- Pool with exactly 50 RFS-eligible gallons and that single item proposed. -/
def conservationGapState : SalesState :=
  { remainingPoolByFeedstock := [("Soybean", 50)]
    saleRows := [conservationGapRow]
    saleErrors := []
    salesHistory := []
    soldByCertificateTxn := { ISCC := 0, LCFS := 0, RFS := 0 } }

/-- Counterexample to C3: requesting `50 + 1e-6` gallons against a pool of 50
eligible gallons is accepted (the oversell check and the leftover check both
use the `epsilon` slack), the pool drops by exactly 50, but the committed
amount recorded is `50 + 1e-6` — so `sum(initial) - sum(final)` is *not*
equal to the sum of committed amounts. -/
theorem conservation_not_exact :
    (commitLoop (fun s => s) conservationGapState).nextErrors = [] ∧
    (handleCommitSales (fun s => s) "fresh" conservationGapState).salesHistory =
      [{ id := "sale-row-5"
         certificate := Certificate.RFS
         amountGal := 50 + 1 / 1000000
         buyerName := "Acme"
         country := "US" }] ∧
    sumPool conservationGapState.remainingPoolByFeedstock -
        sumPool (handleCommitSales (fun s => s) "fresh"
          conservationGapState).remainingPoolByFeedstock ≠
      sumCommitted (handleCommitSales (fun s => s) "fresh"
        conservationGapState).salesHistory := by
  refine ⟨?_, ?_, ?_⟩ <;>
    norm_num +decide [handleCommitSales, commitLoop, conservationGapState, conservationGapRow,
      commitSaleRow, jsTrim, getCertificateRemainingFromPool, getEligibleCertificatesForFeedstock,
      eligibleCertificationsByFeedstock, epsilon, consumeFromSharedPool, orderedFeedstocks,
      extraEligibleFeedstocks, feedstockConsumptionPriorityByCertificate, sortFeedstocks,
      insertSorted, feedstockLt, lexLt, consumeStep, poolLookup, poolSet, createEmptySaleRow,
      addSold, sumPool, sumCommitted]

/-- C3 (amended): conservation up to the epsilon acceptance. For any commit
whose batch produced no errors, the pool decrease equals the committed total
up to the per-item leftovers: it is at most the sum of the newly committed
amounts, and at least that sum minus `epsilon` per committed line item (the
difference is zero, i.e. conservation is exact, whenever no item relies on
the `epsilon` slack). -/
theorem conservation_within_epsilon (mkHistoryId : String → String) (freshRowId : String)
    (state : SalesState)
    (hnodup : ((state.remainingPoolByFeedstock).map Prod.fst).Nodup)
    (herr : (commitLoop mkHistoryId state).nextErrors = []) :
    sumPool state.remainingPoolByFeedstock -
        sumPool (handleCommitSales mkHistoryId freshRowId state).remainingPoolByFeedstock ≤
      sumCommitted (handleCommitSales mkHistoryId freshRowId state).salesHistory -
        sumCommitted state.salesHistory ∧
    sumCommitted (handleCommitSales mkHistoryId freshRowId state).salesHistory -
        sumCommitted state.salesHistory -
        ((commitLoop mkHistoryId state).committedRows.length : ℚ) * epsilon ≤
      sumPool state.remainingPoolByFeedstock -
        sumPool (handleCommitSales mkHistoryId freshRowId state).remainingPoolByFeedstock := by
  by_cases h2 : (commitLoop mkHistoryId state).committedRows = []
  · rw [handleCommitSales_of_no_commit mkHistoryId freshRowId state herr h2, h2]
    norm_num
  · have hpool : (handleCommitSales mkHistoryId freshRowId state).remainingPoolByFeedstock =
        (commitLoop mkHistoryId state).draftPool := by
      rw [handleCommitSales_of_success mkHistoryId freshRowId state herr h2]
    have hhist : (handleCommitSales mkHistoryId freshRowId state).salesHistory =
        state.salesHistory ++ (commitLoop mkHistoryId state).committedRows := by
      rw [handleCommitSales_of_success mkHistoryId freshRowId state herr h2]
    rw [hpool, hhist, sumCommitted_append]
    have hb := commitFold_sum_bounds mkHistoryId state.saleRows
      { nextErrors := []
        draftPool := state.remainingPoolByFeedstock
        committedRows := [] } hnodup
    dsimp only at hb
    simp only [sumCommitted_nil, List.length_nil, Nat.cast_zero, sub_zero] at hb
    unfold commitLoop
    constructor
    · linarith [hb.1]
    · linarith [hb.2]

/-- Witness for the amended C3: the successful 80-gal ISCC commit on the
example pool satisfies both conservation bounds. -/
theorem conservation_within_epsilon_witness :
    (((exampleCommitState.remainingPoolByFeedstock).map Prod.fst).Nodup ∧
      (commitLoop (fun s => s) exampleCommitState).nextErrors = []) ∧
    (sumPool exampleCommitState.remainingPoolByFeedstock -
        sumPool (handleCommitSales (fun s => s) "fresh"
          exampleCommitState).remainingPoolByFeedstock ≤
      sumCommitted (handleCommitSales (fun s => s) "fresh"
          exampleCommitState).salesHistory -
        sumCommitted exampleCommitState.salesHistory ∧
    sumCommitted (handleCommitSales (fun s => s) "fresh"
          exampleCommitState).salesHistory -
        sumCommitted exampleCommitState.salesHistory -
        ((commitLoop (fun s => s) exampleCommitState).committedRows.length : ℚ) * epsilon ≤
      sumPool exampleCommitState.remainingPoolByFeedstock -
        sumPool (handleCommitSales (fun s => s) "fresh"
          exampleCommitState).remainingPoolByFeedstock) := by
  have h1 : ((exampleCommitState.remainingPoolByFeedstock).map Prod.fst).Nodup := by decide
  have h2 : (commitLoop (fun s => s) exampleCommitState).nextErrors = [] := by
    norm_num +decide [commitLoop, exampleCommitState, exampleCommitRow,
      commitSaleRow, jsTrim, getCertificateRemainingFromPool, getEligibleCertificatesForFeedstock,
      eligibleCertificationsByFeedstock, epsilon, consumeFromSharedPool, orderedFeedstocks,
      extraEligibleFeedstocks, feedstockConsumptionPriorityByCertificate, sortFeedstocks,
      insertSorted, feedstockLt, lexLt, consumeStep, poolLookup, poolSet, examplePool]
  exact ⟨⟨h1, h2⟩, conservation_within_epsilon (fun s => s) "fresh" exampleCommitState h1 h2⟩

/-! ### The lexicographic comparison is a strict total order, and the
insertion sort produces a sorted permutation -/

theorem lexLt_asymm : ∀ (a b : List Char), lexLt a b = true → lexLt b a = false := by
  intro a
  induction a with
  | nil =>
    intro b h
    cases b with
    | nil => simp [lexLt] at h
    | cons d ds => simp [lexLt]
  | cons c cs ih =>
    intro b h
    cases b with
    | nil => simp [lexLt] at h
    | cons d ds =>
      simp only [lexLt] at h ⊢
      by_cases h1 : c < d
      · rw [if_neg (lt_asymm h1), if_pos h1]
      · rw [if_neg h1] at h
        by_cases h2 : d < c
        · rw [if_pos h2] at h
          exact absurd h (by simp)
        · rw [if_neg h2] at h
          rw [if_neg h2, if_neg h1]
          exact ih ds h

theorem lexLt_trans :
    ∀ (a b c : List Char), lexLt a b = true → lexLt b c = true → lexLt a c = true := by
  intro a
  induction a with
  | nil =>
    intro b c h1 h2
    cases c with
    | nil =>
      cases b <;> simp [lexLt] at h2
    | cons e es => simp [lexLt]
  | cons c0 cs ih =>
    intro b c h1 h2
    cases b with
    | nil => simp [lexLt] at h1
    | cons d ds =>
      cases c with
      | nil => simp [lexLt] at h2
      | cons e es =>
        simp only [lexLt] at h1 h2 ⊢
        rcases lt_trichotomy c0 d with hcd | hcd | hcd
        · rcases lt_trichotomy d e with hde | hde | hde
          · rw [if_pos (lt_trans hcd hde)]
          · subst hde
            rw [if_pos hcd]
          · rw [if_neg (lt_asymm hde), if_pos hde] at h2
            exact absurd h2 (by simp)
        · subst hcd
          rw [if_neg (lt_irrefl c0), if_neg (lt_irrefl c0)] at h1
          by_cases hde : c0 < e
          · rw [if_pos hde]
          · rw [if_neg hde] at h2
            by_cases hed : e < c0
            · rw [if_pos hed] at h2
              exact absurd h2 (by simp)
            · rw [if_neg hed] at h2
              rw [if_neg hde, if_neg hed]
              exact ih ds es h1 h2
        · rw [if_neg (lt_asymm hcd), if_pos hcd] at h1
          exact absurd h1 (by simp)

theorem lexLt_connex :
    ∀ (a b : List Char), lexLt a b = false → lexLt b a = false → a = b := by
  intro a
  induction a with
  | nil =>
    intro b h1 _
    cases b with
    | nil => rfl
    | cons d ds => simp [lexLt] at h1
  | cons c cs ih =>
    intro b h1 h2
    cases b with
    | nil => simp [lexLt] at h2
    | cons d ds =>
      simp only [lexLt] at h1 h2
      by_cases hcd : c < d
      · rw [if_pos hcd] at h1
        exact absurd h1 (by simp)
      · rw [if_neg hcd] at h1
        by_cases hdc : d < c
        · rw [if_pos hdc] at h2
          exact absurd h2 (by simp)
        · rw [if_neg hdc] at h1
          rw [if_neg hdc, if_neg hcd] at h2
          have hc : c = d := le_antisymm (not_lt.mp hdc) (not_lt.mp hcd)
          rw [hc, ih ds h1 h2]

theorem feedstockLt_false_or_eq (a b : String) (h : lexLt a.data b.data = false) :
    lexLt b.data a.data = true ∨ a = b := by
  by_cases hb : lexLt b.data a.data = true
  · exact Or.inl hb
  · right
    have hb' : lexLt b.data a.data = false := by
      cases hfb : lexLt b.data a.data
      · rfl
      · exact absurd hfb hb
    have := lexLt_connex a.data b.data h hb'
    exact String.ext this

theorem feedstockLe_trans (a b c : String) (h1 : feedstockLt b a = false)
    (h2 : feedstockLt c b = false) : feedstockLt c a = false := by
  unfold feedstockLt at h1 h2 ⊢
  cases hca : lexLt c.data a.data
  · rfl
  · exfalso
    rcases feedstockLt_false_or_eq c b h2 with hbc | hbc
    · have := lexLt_trans b.data c.data a.data hbc hca
      rw [h1] at this
      exact absurd this (by simp)
    · rw [hbc] at hca
      rw [hca] at h1
      exact absurd h1 (by simp)

theorem feedstockLt_lt_of_le (f other b : String) (hf : feedstockLt f other = true)
    (hb : feedstockLt b other = false) : feedstockLt b f = false := by
  unfold feedstockLt at hf hb ⊢
  cases hbf : lexLt b.data f.data
  · rfl
  · exfalso
    have := lexLt_trans b.data f.data other.data hbf hf
    rw [hb] at this
    exact absurd this (by simp)

theorem insertSorted_pairwise (f : String) (l : List String)
    (h : List.Pairwise (fun a b => feedstockLt b a = false) l) :
    List.Pairwise (fun a b => feedstockLt b a = false) (insertSorted f l) := by
  induction l with
  | nil => simp [insertSorted]
  | cons other rest ih =>
    rw [List.pairwise_cons] at h
    simp only [insertSorted]
    by_cases hf : feedstockLt f other = true
    · rw [if_pos hf]
      rw [List.pairwise_cons]
      constructor
      · intro b hb
        rcases List.mem_cons.mp hb with rfl | hb
        · exact lexLt_asymm f.data b.data hf
        · exact feedstockLt_lt_of_le f other b hf (h.1 b hb)
      · rw [List.pairwise_cons]
        exact ⟨h.1, h.2⟩
    · rw [if_neg hf]
      rw [List.pairwise_cons]
      constructor
      · intro b hb
        have hb' := (insertSorted_perm f rest).mem_iff.mp hb
        rcases List.mem_cons.mp hb' with rfl | hb'
        · simpa using hf
        · exact h.1 b hb'
      · exact ih h.2

theorem sortFeedstocks_pairwise (l : List String) :
    List.Pairwise (fun a b => feedstockLt b a = false) (sortFeedstocks l) := by
  induction l with
  | nil => simp [sortFeedstocks]
  | cons f rest ih =>
    simp only [sortFeedstocks]
    exact insertSorted_pairwise f (sortFeedstocks rest) ih

/-- C4: Deterministic consumption order. Consumption draws feedstocks in
exactly the order: the certificate's configured priority list (ISCC: UCO,
Circular Naphtha and Synthetic Oil, Cellulosic Waste, Waste Oil and Waste
Fat; LCFS: UCO, Waste Oil and Waste Fat; RFS: Soybean, Cellulosic Waste),
followed by every other eligible feedstock present in the pool in
lexicographic order of feedstock id (`orderedFeedstocks` is the priority list
followed by a lexicographically sorted permutation of the other eligible pool
keys); each `consumeStep` takes `min(available, outstanding)` and is skipped
once the request reaches 0. Committing `{ISCC, 80}` against
`{UCO: 100, Soybean: 50}` yields `{UCO: 20, Soybean: 50}` with no leftover,
and `remainingForCertificate(LCFS)` on the new pool is `20`. -/
theorem deterministic_consumption_order :
    (feedstockConsumptionPriorityByCertificate Certificate.ISCC =
        ["UCO", "Circular Naphtha and Synthetic Oil", "Cellulosic Waste",
          "Waste Oil and Waste Fat"] ∧
      feedstockConsumptionPriorityByCertificate Certificate.LCFS =
        ["UCO", "Waste Oil and Waste Fat"] ∧
      feedstockConsumptionPriorityByCertificate Certificate.RFS =
        ["Soybean", "Cellulosic Waste"]) ∧
    (∀ (pool : Pool) (certificate : Certificate),
      orderedFeedstocks pool certificate =
        feedstockConsumptionPriorityByCertificate certificate ++
          extraEligibleFeedstocks pool certificate ∧
      List.Perm (extraEligibleFeedstocks pool certificate)
        (((pool.map Prod.fst).filter
            (fun feedstock =>
              certificate ∈ getEligibleCertificatesForFeedstock feedstock)).filter
          (fun feedstock =>
            feedstock ∉ feedstockConsumptionPriorityByCertificate certificate)) ∧
      List.Pairwise (fun a b => feedstockLt b a = false)
        (extraEligibleFeedstocks pool certificate)) ∧
    consumeFromSharedPool examplePool Certificate.ISCC 80 =
      ([("UCO", 20), ("Soybean", 50)], 0) ∧
    getCertificateRemainingFromPool [("UCO", 20), ("Soybean", 50)] Certificate.LCFS = 20 := by
  refine ⟨⟨rfl, rfl, rfl⟩,
    fun pool certificate => ⟨rfl, extraEligible_perm pool certificate, ?_⟩, ?_, ?_⟩
  · unfold extraEligibleFeedstocks
    exact sortFeedstocks_pairwise _
  · norm_num +decide [examplePool, consumeFromSharedPool, orderedFeedstocks,
      extraEligibleFeedstocks, feedstockConsumptionPriorityByCertificate, sortFeedstocks,
      insertSorted, feedstockLt, lexLt, consumeStep, poolLookup, poolSet,
      getEligibleCertificatesForFeedstock, eligibleCertificationsByFeedstock]
  · norm_num +decide [getCertificateRemainingFromPool, getEligibleCertificatesForFeedstock,
      eligibleCertificationsByFeedstock]

/-! ### Overlap characterization and inclusion-exclusion -/

/-- Sum of the gallons of the pool entries eligible for both certificates. -/
def pairSum (pool : Pool) (a b : Certificate) : ℚ :=
  (pool.map (fun entry =>
    if a ∈ getEligibleCertificatesForFeedstock entry.1 ∧
        b ∈ getEligibleCertificatesForFeedstock entry.1 then entry.2 else 0)).sum

theorem pairSum_comm (pool : Pool) (a b : Certificate) :
    pairSum pool a b = pairSum pool b a := by
  unfold pairSum
  congr 1
  apply List.map_congr_left
  intro e _
  by_cases h1 : a ∈ getEligibleCertificatesForFeedstock e.1 <;>
    by_cases h2 : b ∈ getEligibleCertificatesForFeedstock e.1 <;> simp [h1, h2]

theorem pairSum_cons (entry : String × ℚ) (rest : Pool) (a b : Certificate) :
    pairSum (entry :: rest) a b =
      (if a ∈ getEligibleCertificatesForFeedstock entry.1 ∧
          b ∈ getEligibleCertificatesForFeedstock entry.1 then entry.2 else 0) +
        pairSum rest a b := by
  unfold pairSum
  rw [List.map_cons, List.sum_cons]

theorem overlapStep_ISCC_LCFS (acc : OverlapByPair) (entry : String × ℚ) :
    (overlapStep acc entry).ISCC_LCFS = acc.ISCC_LCFS +
      (if Certificate.ISCC ∈ getEligibleCertificatesForFeedstock entry.1 ∧
          Certificate.LCFS ∈ getEligibleCertificatesForFeedstock entry.1
        then entry.2 else 0) := by
  unfold overlapStep
  by_cases hI : Certificate.ISCC ∈ getEligibleCertificatesForFeedstock entry.1 <;>
    by_cases hL : Certificate.LCFS ∈ getEligibleCertificatesForFeedstock entry.1 <;>
    by_cases hR : Certificate.RFS ∈ getEligibleCertificatesForFeedstock entry.1 <;>
    simp [hI, hL, hR]

theorem overlapStep_ISCC_RFS (acc : OverlapByPair) (entry : String × ℚ) :
    (overlapStep acc entry).ISCC_RFS = acc.ISCC_RFS +
      (if Certificate.ISCC ∈ getEligibleCertificatesForFeedstock entry.1 ∧
          Certificate.RFS ∈ getEligibleCertificatesForFeedstock entry.1
        then entry.2 else 0) := by
  unfold overlapStep
  by_cases hI : Certificate.ISCC ∈ getEligibleCertificatesForFeedstock entry.1 <;>
    by_cases hL : Certificate.LCFS ∈ getEligibleCertificatesForFeedstock entry.1 <;>
    by_cases hR : Certificate.RFS ∈ getEligibleCertificatesForFeedstock entry.1 <;>
    simp [hI, hL, hR]

theorem overlapStep_LCFS_RFS (acc : OverlapByPair) (entry : String × ℚ) :
    (overlapStep acc entry).LCFS_RFS = acc.LCFS_RFS +
      (if Certificate.LCFS ∈ getEligibleCertificatesForFeedstock entry.1 ∧
          Certificate.RFS ∈ getEligibleCertificatesForFeedstock entry.1
        then entry.2 else 0) := by
  unfold overlapStep
  by_cases hI : Certificate.ISCC ∈ getEligibleCertificatesForFeedstock entry.1 <;>
    by_cases hL : Certificate.LCFS ∈ getEligibleCertificatesForFeedstock entry.1 <;>
    by_cases hR : Certificate.RFS ∈ getEligibleCertificatesForFeedstock entry.1 <;>
    simp [hI, hL, hR]

theorem overlapFold_ISCC_LCFS (pool : Pool) : ∀ acc : OverlapByPair,
    (pool.foldl overlapStep acc).ISCC_LCFS =
      acc.ISCC_LCFS + pairSum pool Certificate.ISCC Certificate.LCFS := by
  induction pool with
  | nil => intro acc; simp [pairSum]
  | cons e rest ih =>
    intro acc
    rw [List.foldl_cons, ih, overlapStep_ISCC_LCFS, pairSum_cons]
    ring

theorem overlapFold_ISCC_RFS (pool : Pool) : ∀ acc : OverlapByPair,
    (pool.foldl overlapStep acc).ISCC_RFS =
      acc.ISCC_RFS + pairSum pool Certificate.ISCC Certificate.RFS := by
  induction pool with
  | nil => intro acc; simp [pairSum]
  | cons e rest ih =>
    intro acc
    rw [List.foldl_cons, ih, overlapStep_ISCC_RFS, pairSum_cons]
    ring

theorem overlapFold_LCFS_RFS (pool : Pool) : ∀ acc : OverlapByPair,
    (pool.foldl overlapStep acc).LCFS_RFS =
      acc.LCFS_RFS + pairSum pool Certificate.LCFS Certificate.RFS := by
  induction pool with
  | nil => intro acc; simp [pairSum]
  | cons e rest ih =>
    intro acc
    rw [List.foldl_cons, ih, overlapStep_LCFS_RFS, pairSum_cons]
    ring

theorem overlapByPair_ISCC_LCFS (pool : Pool) :
    (overlapByPair pool).ISCC_LCFS = pairSum pool Certificate.ISCC Certificate.LCFS := by
  unfold overlapByPair
  rw [overlapFold_ISCC_LCFS]
  simp

theorem overlapByPair_ISCC_RFS (pool : Pool) :
    (overlapByPair pool).ISCC_RFS = pairSum pool Certificate.ISCC Certificate.RFS := by
  unfold overlapByPair
  rw [overlapFold_ISCC_RFS]
  simp

theorem overlapByPair_LCFS_RFS (pool : Pool) :
    (overlapByPair pool).LCFS_RFS = pairSum pool Certificate.LCFS Certificate.RFS := by
  unfold overlapByPair
  rw [overlapFold_LCFS_RFS]
  simp

theorem overlapLookup_eq (pool : Pool) (a b : Certificate) (h : a ≠ b) :
    overlapLookup (overlapByPair pool) a b = pairSum pool a b := by
  cases a with
  | ISCC =>
    cases b with
    | ISCC => exact absurd rfl h
    | LCFS => exact overlapByPair_ISCC_LCFS pool
    | RFS => exact overlapByPair_ISCC_RFS pool
  | LCFS =>
    cases b with
    | ISCC =>
      rw [show overlapLookup (overlapByPair pool) Certificate.LCFS Certificate.ISCC =
          (overlapByPair pool).ISCC_LCFS from rfl, overlapByPair_ISCC_LCFS]
      exact pairSum_comm pool Certificate.ISCC Certificate.LCFS
    | LCFS => exact absurd rfl h
    | RFS => exact overlapByPair_LCFS_RFS pool
  | RFS =>
    cases b with
    | ISCC =>
      rw [show overlapLookup (overlapByPair pool) Certificate.RFS Certificate.ISCC =
          (overlapByPair pool).ISCC_RFS from rfl, overlapByPair_ISCC_RFS]
      exact pairSum_comm pool Certificate.ISCC Certificate.RFS
    | LCFS =>
      rw [show overlapLookup (overlapByPair pool) Certificate.RFS Certificate.LCFS =
          (overlapByPair pool).LCFS_RFS from rfl, overlapByPair_LCFS_RFS]
      exact pairSum_comm pool Certificate.LCFS Certificate.RFS
    | RFS => exact absurd rfl h

theorem eligSum_incl_excl (pool : Pool) (a b : Certificate) :
    eligSum pool a + eligSum pool b - pairSum pool a b =
      ((pool.filter (fun entry =>
        a ∈ getEligibleCertificatesForFeedstock entry.1 ∨
          b ∈ getEligibleCertificatesForFeedstock entry.1)).map Prod.snd).sum := by
  induction pool with
  | nil => simp [eligSum, pairSum]
  | cons e rest ih =>
    rw [eligSum_cons, eligSum_cons, pairSum_cons]
    by_cases hA : a ∈ getEligibleCertificatesForFeedstock e.1 <;>
      by_cases hB : b ∈ getEligibleCertificatesForFeedstock e.1
    · rw [List.filter_cons_of_pos (by simp [hA]), List.map_cons, List.sum_cons]
      simp only [hA, hB, and_self, if_true]
      linarith [ih]
    · have hAB : ¬(a ∈ getEligibleCertificatesForFeedstock e.1 ∧
          b ∈ getEligibleCertificatesForFeedstock e.1) := fun hh => hB hh.2
      rw [List.filter_cons_of_pos (by simp [hA]), List.map_cons, List.sum_cons,
        if_pos hA, if_neg hB, if_neg hAB]
      linarith [ih]
    · have hAB : ¬(a ∈ getEligibleCertificatesForFeedstock e.1 ∧
          b ∈ getEligibleCertificatesForFeedstock e.1) := fun hh => hA hh.1
      rw [List.filter_cons_of_pos (by simp [hB]), List.map_cons, List.sum_cons,
        if_neg hA, if_pos hB, if_neg hAB]
      linarith [ih]
    · have hAB : ¬(a ∈ getEligibleCertificatesForFeedstock e.1 ∧
          b ∈ getEligibleCertificatesForFeedstock e.1) := fun hh => hA hh.1
      rw [List.filter_cons_of_neg (by simp [hA, hB]), if_neg hA, if_neg hB, if_neg hAB]
      linarith [ih]

/-- C9: Overlap inclusion-exclusion. For every pool and pair of distinct
certificates, `remainingForCertificate(A) + remainingForCertificate(B) -
overlap(A, B)` — with the overlap read out of the `overlapByPair` record —
equals the total gallons of the pool entries eligible for A or for B. -/
theorem overlap_inclusion_exclusion (pool : Pool) (a b : Certificate) (h : a ≠ b) :
    getCertificateRemainingFromPool pool a + getCertificateRemainingFromPool pool b -
        overlapLookup (overlapByPair pool) a b =
      ((pool.filter (fun entry =>
        a ∈ getEligibleCertificatesForFeedstock entry.1 ∨
          b ∈ getEligibleCertificatesForFeedstock entry.1)).map Prod.snd).sum := by
  rw [remaining_eq_eligSum, remaining_eq_eligSum, overlapLookup_eq pool a b h]
  exact eligSum_incl_excl pool a b

/-- Witness for C9: on the example pool, ISCC and LCFS overlap by the whole
UCO lot (`overlap(ISCC, LCFS) = 100`, `overlap(ISCC, RFS) = 0`) and the
inclusion-exclusion identity holds at the pair (ISCC, LCFS). -/
theorem overlap_inclusion_exclusion_witness :
    (overlapByPair examplePool).ISCC_LCFS = 100 ∧
    (overlapByPair examplePool).ISCC_RFS = 0 ∧
    getCertificateRemainingFromPool examplePool Certificate.ISCC +
        getCertificateRemainingFromPool examplePool Certificate.LCFS -
        overlapLookup (overlapByPair examplePool) Certificate.ISCC Certificate.LCFS =
      ((examplePool.filter (fun entry =>
        Certificate.ISCC ∈ getEligibleCertificatesForFeedstock entry.1 ∨
          Certificate.LCFS ∈ getEligibleCertificatesForFeedstock entry.1)).map
        Prod.snd).sum := by
  refine ⟨?_, ?_, overlap_inclusion_exclusion examplePool Certificate.ISCC Certificate.LCFS
    (by decide)⟩ <;>
    norm_num +decide [overlapByPair, overlapStep, examplePool,
      getEligibleCertificatesForFeedstock, eligibleCertificationsByFeedstock]
